import Mathlib

/-!
# A shallow embedding of the `medifs` virtual directory cache

This file translates the data model and the operations of the `medifs`
repository into Lean definitions and proves the specification's claims
about them.

The embedded code lives in `src/data/cache.rs`, `src/data/path.rs`,
`src/data/tag.rs`, `src/data/time.rs`, `src/data/item.rs` and
`src/sources/file_system/mod.rs`.

Modelling conventions:
* `OsString` values become `String`s (raw byte identity is name identity).
* `std::path` values become lists of `Component`s; parsing a string into
  components (`Path::components()`) and `PathBuf::push` (which *replaces*
  the accumulated path when the pushed path is absolute) are modelled
  explicitly.
* `HashMap<OsString, Entry>` becomes an association list `Tree` with
  unique keys maintained by `Tree.insert` (replace-or-append), mirroring
  `HashMap::insert` / `Entry::or_insert_with`.
* Machine integers (`i32`, `i64`, `usize`) become `Int` / `Nat`; none of
  the embedded arithmetic can overflow in the modelled ranges.
* Fallible operations return `Option`.
-/

namespace Medifs

/-! ## Decimal rendering

Rust's `format!("{}", n)` for unsigned integers is decimal rendering;
Lean core's `Nat.repr` computes the same string.  We relate it to a
structurally recursive spec `natDigs` and prove injectivity, which the
collision-suffix loop of `Cache::add_with_index` relies on for
termination and freshness.
-/

/-- Structural spec of base-10 rendering: most significant digit first. -/
def natDigs (n : Nat) : List Char :=
  if h : n < 10 then [Nat.digitChar n]
  else natDigs (n / 10) ++ [Nat.digitChar (n % 10)]
  decreasing_by exact Nat.div_lt_self (by omega) (by omega)

/-- The numeric value read back from a digit list, starting from `a`. -/
def digitsVal (a : Nat) (l : List Char) : Nat :=
  l.foldl (fun acc c => 10 * acc + (c.toNat - 48)) a

theorem digitsVal_append (a : Nat) (l₁ l₂ : List Char) :
    digitsVal a (l₁ ++ l₂) = digitsVal (digitsVal a l₁) l₂ := by
  simp [digitsVal, List.foldl_append]

theorem digitChar_toNat {d : Nat} (h : d < 10) :
    (Nat.digitChar d).toNat - 48 = d := by
  interval_cases d <;> rfl

theorem digitsVal_natDigs (a n : Nat) :
    digitsVal a (natDigs n) = a * 10 ^ (natDigs n).length + n := by
  induction n using Nat.strong_induction_on generalizing a with
  | _ n ih =>
    rw [natDigs]
    by_cases h : n < 10
    · simp [h, digitsVal, digitChar_toNat h, Nat.mul_comm]
    · have hd : n / 10 < n := Nat.div_lt_self (by omega) (by omega)
      simp only [h, dite_false, digitsVal_append]
      rw [ih _ hd]
      simp [digitsVal, digitChar_toNat (Nat.mod_lt n (by omega : 0 < 10))]
      rw [pow_succ]
      have hmod := Nat.mod_add_div n 10
      ring_nf
      omega

theorem natDigs_injective : Function.Injective natDigs := by
  intro m n h
  have hm := digitsVal_natDigs 0 m
  have hn := digitsVal_natDigs 0 n
  rw [h] at hm
  simp at hm hn
  omega

/-- `Nat.toDigitsCore` with sufficient fuel agrees with `natDigs`. -/
theorem toDigitsCore_eq_natDigs (fuel n : Nat) (acc : List Char)
    (h : n < fuel) :
    Nat.toDigitsCore 10 fuel n acc = natDigs n ++ acc := by
  induction fuel generalizing n acc with
  | zero => omega
  | succ fuel ih =>
    rw [Nat.toDigitsCore, natDigs]
    by_cases h10 : n < 10
    · have : n / 10 = 0 := Nat.div_eq_of_lt h10
      simp [this, h10, Nat.mod_eq_of_lt h10]
    · have hne : ¬ n / 10 = 0 := by
        intro hz
        have := Nat.div_eq_of_lt (show n < 10 by omega)
        omega
      have hlt : n / 10 < fuel := by
        have : n / 10 < n := Nat.div_lt_self (by omega) (by omega)
        omega
      simp only [hne, if_false, h10, dite_false]
      rw [ih _ _ hlt]
      simp

theorem natRepr_eq (n : Nat) : Nat.repr n = (natDigs n).asString := by
  rw [Nat.repr, Nat.toDigits, toDigitsCore_eq_natDigs (n + 1) n [] (by omega)]
  simp

/-- Decimal rendering of naturals is injective (`format!("{}", index)`). -/
theorem natRepr_injective : Function.Injective Nat.repr := by
  intro m n h
  rw [natRepr_eq, natRepr_eq] at h
  have : natDigs m = natDigs n := by
    have := congrArg String.data h
    simpa [List.asString] using this
  exact natDigs_injective this

/-! ## Paths (`std::path` on unix)

A parsed path is a list of components.  `Component::Prefix` (named `pfx`
here) only occurs on Windows but `Cache::lookup` must reject it, so it is
part of the model.
-/

/-- A path component, as produced by `Path::components()`. -/
inductive Component where
  | rootDir : Component
  | curDir : Component
  | parentDir : Component
  | pfx : String → Component
  | normal : String → Component
deriving DecidableEq

/-- Split a character list at every `/` (keeping empty pieces, like
`str::split('/')`). -/
def splitOnSlash : List Char → List (List Char)
  | [] => [[]]
  | c :: rest =>
    let r := splitOnSlash rest
    if c = '/' then [] :: r
    else
      match r with
      | x :: xs => (c :: x) :: xs
      | [] => [[c]]

/-- `Path::components()` for a unix path string: repeated separators and
interior `.` components are dropped; a leading `/` yields `rootDir`; a
leading `.` of a relative path yields `curDir`; `..` yields `parentDir`. -/
def parsePath (s : String) : List Component :=
  let pieces := (splitOnSlash s.data).filter (fun p => !(p == []) && !(p == ['.']))
  let comps := pieces.map
    (fun p => if p = ['.', '.'] then Component.parentDir else Component.normal ⟨p⟩)
  match s.data with
  | '/' :: _ => Component.rootDir :: comps
  | ['.'] => Component.curDir :: comps
  | '.' :: '/' :: _ => Component.curDir :: comps
  | _ => comps

/-- `Path::is_absolute()` on unix: the path has a root. -/
def pathIsAbsolute (p : List Component) : Bool :=
  p.head? = some Component.rootDir

/-- `PathBuf::push`: pushing an absolute path replaces the accumulated
path; pushing a relative path appends its components. -/
def pathPush (a b : List Component) : List Component :=
  if pathIsAbsolute b then b else a ++ b

/-- `Path::file_name()`: the final component if it is a normal one. -/
def pathFileName (p : List Component) : Option String :=
  match p.getLast? with
  | some (Component.normal s) => some s
  | _ => none

/-- Index of the last occurrence of `c`, if any (`str::rfind`). -/
def lastIdxOf (c : Char) : List Char → Option Nat
  | [] => none
  | x :: xs =>
    match lastIdxOf c xs with
    | some i => some (i + 1)
    | none => if x = c then some 0 else none

/-- Split a file name at the dot separating stem and extension, following
`Path::file_stem` / `Path::extension`: the split happens at the last `.`
unless it is the leading character. -/
def rustSplitDot (s : String) : String × Option String :=
  match lastIdxOf '.' s.data with
  | some i =>
    if i = 0 then (s, none)
    else (⟨s.data.take i⟩, some ⟨s.data.drop (i + 1)⟩)
  | none => (s, none)

/-- `FileBase for ffi::OsString`: the file stem, or `"bin"`. -/
def pathFileBase (p : List Component) : String :=
  match pathFileName p with
  | some s => (rustSplitDot s).1
  | none => "bin"

/-- `FileExtension for ffi::OsString`: the extension, or `"bin"`. -/
def pathFileExtension (p : List Component) : String :=
  match pathFileName p with
  | some s =>
    match (rustSplitDot s).2 with
    | some e => e
    | none => "bin"
  | none => "bin"

/-! ## Media types (`mime::Mime`) -/

/-- A media type: a type and a subtype, e.g. `image/jpeg`. -/
structure Mime where
  type_ : String
  subtype : String
deriving DecidableEq

/-- `mime::IMAGE_JPEG`. -/
def imageJpeg : Mime := ⟨"image", "jpeg"⟩

/-- `mime::IMAGE_PNG`. -/
def imagePng : Mime := ⟨"image", "png"⟩

/-- The media-type → extensions table of the external `mime_guess` crate
(`get_mime_extensions`), taken as a parameter of the embedding. -/
def MimeTable : Type := Mime → Option (List String)

/-- `FileExtension for mime::Mime` (`src/data/path.rs`): JPEG and PNG are
special-cased; other types take the first table entry, falling back to
`"bin"`. -/
def mimeFileExtension (tbl : MimeTable) (m : Mime) : String :=
  if m = imageJpeg then "jpeg"
  else if m = imagePng then "png"
  else (((tbl m).bind List.head?).getD "bin")

/-! ## Name synthesis (`src/data/path.rs`) -/

/-- `data::name`: `"<base>.<ext>"` for index 0, otherwise
`"<base> (<index>).<ext>"`. -/
def dataName (base ext : String) (index : Nat) : String :=
  if index > 0 then base ++ " (" ++ Nat.repr index ++ ")." ++ ext
  else base ++ "." ++ ext

/-! ## Timestamps (`src/data/time.rs`, wrapping `time::Tm`) -/

/-- A broken-down civil time, mirroring the `time::Tm` fields the code
reads (`tm_utcoff` is always 0 for timestamps built by this crate's
constructors, and the remaining fields are unused). -/
structure Timestamp where
  tm_year : Int
  tm_mon : Int
  tm_mday : Int
  tm_hour : Int
  tm_min : Int
  tm_sec : Int
  tm_nsec : Int
deriving DecidableEq

/-- `Timestamp::from((y, m, d, h, min, s))`. -/
def Timestamp.ofYmdhms (y mo d h mi s : Int) : Timestamp :=
  ⟨y - 1900, mo - 1, d, h, mi, s, 0⟩

/-- `Timestamp::year()`. -/
def Timestamp.year (t : Timestamp) : Int := t.tm_year + 1900

/-- `Timestamp::month()`. -/
def Timestamp.month (t : Timestamp) : Int := t.tm_mon + 1

/-- `Timestamp::day()`. -/
def Timestamp.day (t : Timestamp) : Int := t.tm_mday

/-- Rust's `format!("{:02}", n)`: zero-pad the rendering to width two. -/
def pad2 (n : Int) : String :=
  let s := Int.repr n
  if s.length < 2 then "0" ++ s else s

/-- `Display for Timestamp`: `strftime("%Y-%m-%d %H:%M")`, the year
unpadded and the other fields zero-padded to two digits. -/
def fmtTimestamp (t : Timestamp) : String :=
  Int.repr t.year ++ "-" ++ pad2 t.month ++ "-" ++ pad2 t.day ++ " " ++
    pad2 t.tm_hour ++ ":" ++ pad2 t.tm_min

/-- `time::Timespec`: seconds and nanoseconds since the epoch, ordered
lexicographically. -/
structure Timespec where
  sec : Int
  nsec : Int
deriving DecidableEq

/-- The lexicographic order derived for `time::Timespec`. -/
def Timespec.le (a b : Timespec) : Prop :=
  a.sec < b.sec ∨ (a.sec = b.sec ∧ a.nsec ≤ b.nsec)

instance (a b : Timespec) : Decidable (Timespec.le a b) := by
  unfold Timespec.le
  infer_instance

/-- Days from the epoch to civil date `(y, m, d)` in the proleptic
Gregorian calendar (the conversion performed by `timegm`, which
`Tm::to_timespec` of the external `time` crate applies when
`tm_utcoff == 0`). -/
def daysFromCivil (y m d : Int) : Int :=
  let y' := if m ≤ 2 then y - 1 else y
  let era := Int.fdiv (if 0 ≤ y' then y' else y' - 399) 400
  let yoe := y' - era * 400
  let mp := Int.emod (m + 9) 12
  let doy := Int.fdiv (153 * mp + 2) 5 + d - 1
  let doe := yoe * 365 + Int.fdiv yoe 4 - Int.fdiv yoe 100 + doy
  era * 146097 + doe - 719468

/-- `Tm::to_timespec` for the `tm_utcoff == 0` timestamps this crate
constructs: civil time converted to seconds since the epoch, carrying
`tm_nsec` over. -/
def Timestamp.toTimespec (t : Timestamp) : Timespec :=
  ⟨86400 * daysFromCivil (t.tm_year + 1900) (t.tm_mon + 1) t.tm_mday +
      3600 * t.tm_hour + 60 * t.tm_min + t.tm_sec,
    t.tm_nsec⟩

/-! ## Tags (`src/data/tag.rs`) -/

/-- A tag: an optional parent part and a leaf part. -/
structure Tag where
  parent : Option String
  leaf : String
deriving DecidableEq

/-- `Tag::split`: split at the last separator (`str::rfind('/')`); a
string without separators has no parent part. -/
def Tag.split (s : String) : Option String × String :=
  match lastIdxOf '/' s.data with
  | some i => (some ⟨s.data.take i⟩, ⟨s.data.drop (i + 1)⟩)
  | none => (none, s)

/-- `Tag::new`. -/
def Tag.new (s : String) : Tag :=
  let (parent, leaf) := Tag.split s
  ⟨parent, leaf⟩

/-- `Tag::from_str`: fails on the empty string and on strings starting or
ending with the separator. -/
def tagFromStr (s : String) : Option Tag :=
  if s.length = 0 ∨ s.data.head? = some '/' ∨ s.data.getLast? = some '/'
  then none
  else some (Tag.new s)

/-! ## Items (`src/data/item.rs`)

The snapshot's `item.rs` declares `tags: HashSet<String>` while
`cache.rs` consumes the elements as `Tag` values (`tag.parent`,
`tag.leaf`); `cache.rs` is the authority for the cache claims, so items
carry `Tag`s here.  The `HashSet` iteration order is unspecified; a list
stands for one arbitrary iteration order. -/

/-- A media item (equality in the source is by `path` alone; entries
store whole items, so we keep all fields). -/
structure Item where
  path : List Component
  timestamp : Timestamp
  tags : List Tag
  media_type : Mime
deriving DecidableEq

/-- `max_by` on two timestamps under the derived lexicographic order
(the later of the two; the second wins ties, as `max_by` keeps the last
maximal element). -/
def tsMax (a b : Timespec) : Timespec :=
  if Timespec.le a b then b else a

/-- The maximum of a list of timestamps, the zero timestamp for the empty
list (`max_by(...).unwrap_or(Timespec::new(0, 0))`). -/
def maxTsList : List Timespec → Timespec
  | [] => ⟨0, 0⟩
  | [x] => x
  | x :: y :: rest => tsMax x (maxTsList (y :: rest))

/-! ## Cache entries (`src/data/cache.rs`)

`Tree = HashMap<OsString, Entry>` becomes an association list with
unique keys; `Tree.insert` replaces the value of an existing key and
appends otherwise, like `HashMap::insert` (and `Entry::or_insert_with`
only ever inserts absent keys). -/

mutual

/-- A cache entry: directory, item, or symlink.  A link stores the
timestamp and the target; the target `OsString` is the rendering of the
component list kept here. -/
inductive Entry where
  | directory : Tree → Entry
  | item : Item → Entry
  | link : Timespec → List Component → Entry

/-- A directory tree: an association list from names to entries. -/
inductive Tree where
  | nil : Tree
  | cons : String → Entry → Tree → Tree

end

/-- `HashMap::get`. -/
def Tree.get : Tree → String → Option Entry
  | Tree.nil, _ => none
  | Tree.cons k v rest, s => if k = s then some v else Tree.get rest s

/-- `HashMap::contains_key`. -/
def Tree.containsKey (t : Tree) (s : String) : Bool :=
  (t.get s).isSome

/-- `HashMap::insert`: replace the value of an existing key, otherwise
add the binding. -/
def Tree.insert : Tree → String → Entry → Tree
  | Tree.nil, s, e => Tree.cons s e Tree.nil
  | Tree.cons k v rest, s, e =>
    if k = s then Tree.cons k e rest else Tree.cons k v (Tree.insert rest s e)

/-- The number of bindings. -/
def Tree.size : Tree → Nat
  | Tree.nil => 0
  | Tree.cons _ _ rest => Tree.size rest + 1

/-- The list of keys. -/
def Tree.keys : Tree → List String
  | Tree.nil => []
  | Tree.cons k _ rest => k :: Tree.keys rest

/-- `Entry::clear`: empties a directory; no effect on other entries. -/
def Entry.clear : Entry → Entry
  | Entry.directory _ => Entry.directory Tree.nil
  | e => e

mutual

/-- `Entry::timestamp`: directories report the maximum of their
children's timestamps (the zero timestamp when empty); items and links
their own. -/
def Entry.timestamp : Entry → Timespec
  | Entry.directory t => Tree.maxTimestamp t
  | Entry.item it => it.timestamp.toTimespec
  | Entry.link ts _ => ts

/-- `tree.values().max_by(cmp by timestamp)`, defaulting to the zero
timestamp for an empty tree. -/
def Tree.maxTimestamp : Tree → Timespec
  | Tree.nil => ⟨0, 0⟩
  | Tree.cons _ e Tree.nil => Entry.timestamp e
  | Tree.cons _ e (Tree.cons k' e' rest) =>
    tsMax (Entry.timestamp e) (Tree.maxTimestamp (Tree.cons k' e' rest))

end

mutual

/-- The transitive descendant entries of an entry (the entries of its
subtree, itself excluded); leaves have none. -/
def Entry.descendants : Entry → List Entry
  | Entry.directory t => Tree.descList t
  | Entry.item _ => []
  | Entry.link _ _ => []

/-- All entries reachable in a tree, each followed by its own
descendants. -/
def Tree.descList : Tree → List Entry
  | Tree.nil => []
  | Tree.cons _ e rest => (e :: Entry.descendants e) ++ Tree.descList rest

end

/-- `Entry::name`: the display name for an index.  The method panics on
directory entries in the source and is never invoked on them; the
directory case here is an arbitrary placeholder.  `tbl` is the external
media-type table consulted for an item's extension. -/
def entryName (tbl : MimeTable) : Entry → Nat → String
  | Entry.item it, i =>
    dataName (fmtTimestamp it.timestamp) (mimeFileExtension tbl it.media_type) i
  | Entry.link _ target, i =>
    dataName (pathFileBase target) (pathFileExtension target) i
  | Entry.directory _, _ => ""

/-- The collision-suffix search loop of `Cache::add_with_index`: starting
from index `i`, return the first index whose generated name is not in the
tree.  The fuel `t.size + 1` provably suffices (`freeIndex_spec`). -/
def freeIndexAux (tbl : MimeTable) (t : Tree) (e : Entry) : Nat → Nat → Nat
  | 0, i => i
  | fuel + 1, i =>
    if t.containsKey (entryName tbl e i) then freeIndexAux tbl t e fuel (i + 1)
    else i

/-- The index chosen by `Cache::add_with_index` for `entry` in `tree`. -/
def freeIndex (tbl : MimeTable) (t : Tree) (e : Entry) : Nat :=
  freeIndexAux tbl t e (t.size + 1) 0

/-- The name under which `Cache::add_with_index` inserts `entry`. -/
def freshName (tbl : MimeTable) (t : Tree) (e : Entry) : String :=
  entryName tbl e (freeIndex tbl t e)

/-! ## The cache -/

/-- `data::cache::Cache`: a root directory entry and the two configured
bucket names. -/
structure Cache where
  root : Entry
  timestamp_root : String
  tagged_root : String

/-- `Cache::new`. -/
def Cache.new (timestamp_root tagged_root : String) : Cache :=
  ⟨Entry.directory Tree.nil, timestamp_root, tagged_root⟩

/-- One step of the fold in `Cache::lookup`: root and current directory
components are skipped, normal components descend through directories,
anything else (or a missing name, or a non-directory) yields `none`. -/
def lookupStep : Option Entry → Component → Option Entry
  | acc, Component.rootDir => acc
  | acc, Component.curDir => acc
  | acc, Component.normal s =>
    acc.bind fun e =>
      match e with
      | Entry.directory t => t.get s
      | _ => none
  | _, _ => none

/-- `Cache::lookup` from an arbitrary entry. -/
def lookupFrom (e : Entry) (p : List Component) : Option Entry :=
  p.foldl lookupStep (some e)

/-- `Cache::lookup`. -/
def Cache.lookup (c : Cache) (p : List Component) : Option Entry :=
  lookupFrom c.root p

/-- `Cache::assert_exists` fused with the caller's insertion: walk `p`
from `e` skipping root/current-directory components, creating missing
directories along the way (`Entry::or_insert_with`); if the walk ends at
a directory, insert `x` there under the first free collision-suffix name
(`Cache::add_with_index`) and return that name.  Whenever the Rust fold's
accumulator becomes `None` — a parent-directory or prefix component, or
descent into a non-directory — the walk stops without further mutation
and no insertion happens, but directories already created remain. -/
def insertEntry (tbl : MimeTable) : Entry → List Component → Entry → Entry × Option String
  | e, [], x =>
    match e with
    | Entry.directory t =>
      let n := freshName tbl t x
      (Entry.directory (t.insert n x), some n)
    | e => (e, none)
  | e, c :: rest, x =>
    match c with
    | Component.rootDir => insertEntry tbl e rest x
    | Component.curDir => insertEntry tbl e rest x
    | Component.normal s =>
      match e with
      | Entry.directory t =>
        let child := (t.get s).getD (Entry.directory Tree.nil)
        let r := insertEntry tbl child rest x
        (Entry.directory (t.insert s r.1), r.2)
      | e => (e, none)
    | Component.parentDir => (e, none)
    | Component.pfx _ => (e, none)

/-- The entry `Cache::assert_exists` focuses (the value behind the
returned `&mut Entry`), without performing the caller's insertion. -/
def navFocus : Entry → List Component → Option Entry
  | e, [] => some e
  | e, c :: rest =>
    match c with
    | Component.rootDir => navFocus e rest
    | Component.curDir => navFocus e rest
    | Component.normal s =>
      match e with
      | Entry.directory t => navFocus ((t.get s).getD (Entry.directory Tree.nil)) rest
      | Entry.item _ => none
      | Entry.link _ _ => none
    | Component.parentDir => none
    | Component.pfx _ => none

/-- The timestamp-tree directory computed by `Cache::add`:
`<timestamp_root>/YYYY/MM/DD`, the year unpadded (`format!("{}")`), month
and day zero-padded (`format!("{:02}")`). -/
def tsDirOf (c : Cache) (it : Item) : List Component :=
  parsePath c.timestamp_root ++
    [Component.normal (Int.repr it.timestamp.year),
     Component.normal (pad2 it.timestamp.month),
     Component.normal (pad2 it.timestamp.day)]

/-- The tag directory computed by `Cache::add` for one tag:
`PathBuf::from(tagged_root)` pushed with the parent (when present) and
the leaf.  Each part is parsed as a path by `push`, so an absolute part
replaces what was accumulated. -/
def tagDirOf (c : Cache) (tag : Tag) : List Component :=
  let d := parsePath c.tagged_root
  let d :=
    match tag.parent with
    | some p => pathPush d (parsePath p)
    | none => d
  pathPush d (parsePath tag.leaf)

/-- `Cache::add_item`: assert the directory exists and insert the item,
returning `directory/<name>` on success.  On failure the partially
created directories remain (mirroring the by-reference mutation). -/
def Cache.add_item (tbl : MimeTable) (c : Cache) (dir : List Component) (it : Item) :
    Cache × Option (List Component) :=
  match insertEntry tbl c.root dir (Entry.item it) with
  | (root', some n) => ({c with root := root'}, some (dir ++ [Component.normal n]))
  | (root', none) => ({c with root := root'}, none)

/-- `Cache::add_link`: assert the tag directory exists; on success insert
a link carrying the item's timestamp and the relative target — one `..`
pushed per component of the directory, then the item path pushed (which
*replaces* the `..` prefix when the item path is absolute).  Failures are
silently ignored. -/
def Cache.add_link (tbl : MimeTable) (c : Cache) (dir path : List Component) (it : Item) :
    Cache :=
  let rel := pathPush (List.replicate dir.length Component.parentDir) path
  {c with root := (insertEntry tbl c.root dir (Entry.link it.timestamp.toTimespec rel)).1}

/-- `Cache::add`: insert the item under its timestamp-tree directory; on
success add one link per tag under the tag's directory. -/
def Cache.add (tbl : MimeTable) (c : Cache) (it : Item) : Cache × Option (List Component) :=
  let dir := tsDirOf c it
  match c.add_item tbl dir it with
  | (c', some path) =>
    (it.tags.foldl (fun cc tag => cc.add_link tbl (tagDirOf cc tag) path it) c',
      some path)
  | (c', none) => (c', none)

/-- `Cache::add_iter`: fold `add` over the items, stopping at (and
returning) the first rejected item. -/
def Cache.add_iter (tbl : MimeTable) : Cache → List Item → Cache × Option Item
  | c, [] => (c, none)
  | c, it :: rest =>
    match c.add tbl it with
    | (c', some _) => Cache.add_iter tbl c' rest
    | (c', none) => (c', some it)

/-- `Cache::replace_all`: clear the root directory, then behave as
`add_iter`. -/
def Cache.replace_all (tbl : MimeTable) (c : Cache) (items : List Item) :
    Cache × Option Item :=
  Cache.add_iter tbl {c with root := c.root.clear} items

/-- A sequence of `Cache::add` calls, collecting the outcome of every
call in order (the returned path, or `none` for a rejected item). -/
def addAll (tbl : MimeTable) : Cache → List Item →
    Cache × List (Option (List Component))
  | c, [] => (c, [])
  | c, it :: rest =>
    let r := c.add tbl it
    let rr := addAll tbl r.1 rest
    (rr.1, r.2 :: rr.2)

/-- The cache after folding `Cache::add` over the items, ignoring
results. -/
def foldAdd (tbl : MimeTable) (c : Cache) (items : List Item) : Cache :=
  items.foldl (fun c it => (c.add tbl it).1) c

/-- Every add in the sequence succeeds, each from the state the previous
one left. -/
def addsOk (tbl : MimeTable) : Cache → List Item → Prop
  | _, [] => True
  | c, it :: rest => (c.add tbl it).2.isSome ∧ addsOk tbl (c.add tbl it).1 rest

/-- Components the creating walk can traverse: root, current directory,
or a normal name (parent/prefix components abort it). -/
def compOk : Component → Prop
  | Component.rootDir => True
  | Component.curDir => True
  | Component.normal _ => True
  | Component.parentDir => False
  | Component.pfx _ => False

instance (c : Component) : Decidable (compOk c) := by
  cases c
  case rootDir => exact isTrue trivial
  case curDir => exact isTrue trivial
  case normal s => exact isTrue trivial
  case parentDir => exact isFalse id
  case pfx s => exact isFalse id

/-- The normal-component names of a path, in order. -/
def normalsOf : List Component → List String
  | [] => []
  | Component.normal s :: rest => s :: normalsOf rest
  | Component.rootDir :: rest => normalsOf rest
  | Component.curDir :: rest => normalsOf rest
  | Component.parentDir :: rest => normalsOf rest
  | Component.pfx _ :: rest => normalsOf rest

/-- A chain of singleton directories ending in the tree `t`. -/
def mkChain : List String → Tree → Entry
  | [], t => Entry.directory t
  | s :: ss, t => Entry.directory (Tree.cons s (mkChain ss t) Tree.nil)

/-- The directory tree holding `items` under collision-suffixed names
with base `b`, extension `x` and indices counting up from `start`. -/
def itemsTree (b x : String) : Nat → List Item → Tree
  | _, [] => Tree.nil
  | start, it :: rest =>
    Tree.cons (dataName b x start) (Entry.item it) (itemsTree b x (start + 1) rest)

/-- The timestamp-tree directory for a root name and a timestamp (what
`Cache::add` computes for an item with that timestamp). -/
def tsDirFor (tsroot : String) (ts : Timestamp) : List Component :=
  parsePath tsroot ++
    [Component.normal (Int.repr ts.year), Component.normal (pad2 ts.month),
     Component.normal (pad2 ts.day)]

/-! ## Concrete fixtures for witnesses and counterexamples -/

/-- An empty media-type table (the two special-cased types need none). -/
def tbl0 : MimeTable := fun _ => none

/-- New Year 2000, midnight. -/
def ts2000 : Timestamp := Timestamp.ofYmdhms 2000 1 1 0 0 0

/-- A plain JPEG item without tags. -/
def it1 : Item := ⟨[Component.normal "test.jpg"], ts2000, [], imageJpeg⟩

/-- A second plain JPEG item with the same timestamp. -/
def it2 : Item := ⟨[Component.normal "test2.jpg"], ts2000, [], imageJpeg⟩

/-- The cache configuration the repository's own tests use: absolute
timestamp root `/base`, tag root `tagged`. -/
def c0 : Cache := Cache.new "/base" "tagged"

/-- The cache configuration `main.rs` uses: `All` and `Tagged`. -/
def cAll : Cache := Cache.new "All" "Tagged"

/-- A JPEG item carrying one root tag `t`. -/
def itT : Item := ⟨[Component.normal "t.jpg"], ts2000, [⟨none, "t"⟩], imageJpeg⟩

/-- A JPEG item carrying a tag whose parent part is an absolute path
aliasing the timestamp tree. -/
def itX : Item :=
  ⟨[Component.normal "a.jpg"], ts2000, [⟨some "/All/2000/01", "01"⟩], imageJpeg⟩

/-- The path `cache.add` returns for `it1` in `c0`. -/
def pW1 : List Component :=
  [Component.rootDir, Component.normal "base", Component.normal "2000",
   Component.normal "01", Component.normal "01",
   Component.normal "2000-01-01 00:00.jpeg"]

/-- The timestamp-tree path of `itX`/`it2` in `cAll` at index 0. -/
def pX0 : List Component :=
  [Component.normal "All", Component.normal "2000", Component.normal "01",
   Component.normal "01", Component.normal "2000-01-01 00:00.jpeg"]

/-- The same path at collision index 1. -/
def pX1 : List Component :=
  [Component.normal "All", Component.normal "2000", Component.normal "01",
   Component.normal "01", Component.normal "2000-01-01 00:00 (1).jpeg"]

/-- The same path at collision index 2. -/
def pX2 : List Component :=
  [Component.normal "All", Component.normal "2000", Component.normal "01",
   Component.normal "01", Component.normal "2000-01-01 00:00 (2).jpeg"]

/-! ## The file-system source (`src/sources/file_system/mod.rs`)

`notify()` stats the root directory.  We model the stat result as an
`Option Int` (`None` = the modification time is unreadable; the
`SystemTime` order is total, so an `Int` stands for it), the source state
as its remembered last-seen timestamp, and report whether `populate()`
ran. -/

/-- The state a `FileSystemSource` keeps for freshness: the timestamp of
the last refresh (`fn timestamp`). -/
structure FsSource where
  last : Option Int
deriving DecidableEq

/-- `Source::notify` for file-system sources: a no-op when the root's
modification time is unreadable; otherwise populate and record the
stat'd value whenever the last-seen value is absent or strictly smaller
(`self.timestamp().map(|t| t < timestamp).unwrap_or(true)`).  The
returned flag reports whether `populate()` ran. -/
def FsSource.notify (rootMtime : Option Int) (s : FsSource) : FsSource × Bool :=
  match rootMtime with
  | none => (s, false)
  | some m =>
    if (s.last.map (fun t => decide (t < m))).getD true then (⟨some m⟩, true)
    else (s, false)

/-! ## Lookup characterisation (claim C7) -/

/-- The lookup walk as the specification words it: skip root-directory
and current-directory components, descend through directory entries on
normal components, return the entry reached by the final component, and
fail on parent-directory or prefix components, absent names, and descent
through non-directory entries. -/
def lookupSpec : Entry → List Component → Option Entry
  | e, [] => some e
  | e, Component.rootDir :: rest => lookupSpec e rest
  | e, Component.curDir :: rest => lookupSpec e rest
  | Entry.directory t, Component.normal s :: rest =>
    match t.get s with
    | some e' => lookupSpec e' rest
    | none => none
  | Entry.item _, Component.normal _ :: _ => none
  | Entry.link _ _, Component.normal _ :: _ => none
  | _, Component.parentDir :: _ => none
  | _, Component.pfx _ :: _ => none

theorem lookupStep_none (c : Component) : lookupStep none c = none := by
  cases c <;> rfl

theorem foldl_lookupStep_none (p : List Component) :
    p.foldl lookupStep none = none := by
  induction p with
  | nil => rfl
  | cons c rest ih => rw [List.foldl_cons, lookupStep_none, ih]

theorem lookupFrom_cons (e : Entry) (c : Component) (rest : List Component) :
    lookupFrom e (c :: rest) = rest.foldl lookupStep (lookupStep (some e) c) :=
  rfl

theorem lookupFrom_eq_spec (e : Entry) (p : List Component) :
    lookupFrom e p = lookupSpec e p := by
  induction p generalizing e with
  | nil => simp [lookupFrom, lookupSpec]
  | cons c rest ih =>
    cases c with
    | rootDir => rw [lookupSpec, lookupFrom_cons]; exact ih e
    | curDir => rw [lookupSpec, lookupFrom_cons]; exact ih e
    | parentDir =>
      rw [lookupFrom_cons]
      show List.foldl lookupStep none rest = _
      rw [foldl_lookupStep_none]
      cases e <;> simp [lookupSpec]
    | pfx s =>
      rw [lookupFrom_cons]
      show List.foldl lookupStep none rest = _
      rw [foldl_lookupStep_none]
      cases e <;> simp [lookupSpec]
    | normal s =>
      cases e with
      | directory t =>
        rw [lookupFrom_cons]
        show List.foldl lookupStep (t.get s) rest = _
        cases hg : t.get s with
        | some e' => rw [lookupSpec, hg]; exact ih e'
        | none => rw [lookupSpec, hg, foldl_lookupStep_none]
      | item it =>
        rw [lookupFrom_cons]
        show List.foldl lookupStep none rest = _
        rw [foldl_lookupStep_none, lookupSpec]
      | link ts tg =>
        rw [lookupFrom_cons]
        show List.foldl lookupStep none rest = _
        rw [foldl_lookupStep_none, lookupSpec]

/-! ## Tree lemmas -/

/-- Single-motive induction on trees (the mutual recursor has a motive
per type; these lemmas never look inside entries). -/
@[induction_eliminator]
theorem Tree.inductionOn {motive : Tree → Prop} (t : Tree)
    (nil : motive Tree.nil)
    (cons : ∀ k v rest, motive rest → motive (Tree.cons k v rest)) :
    motive t :=
  match t with
  | Tree.nil => nil
  | Tree.cons k v rest => cons k v rest (Tree.inductionOn rest nil cons)

theorem Tree.get_insert_self (t : Tree) (s : String) (e : Entry) :
    (t.insert s e).get s = some e := by
  induction t with
  | nil => simp [Tree.insert, Tree.get]
  | cons k v rest ih =>
    by_cases h : k = s
    · simp [Tree.insert, Tree.get, h]
    · simp [Tree.insert, Tree.get, h, ih]

theorem Tree.get_insert_ne (t : Tree) (s s' : String) (e : Entry) (h : s ≠ s') :
    (t.insert s e).get s' = t.get s' := by
  induction t with
  | nil => simp [Tree.insert, Tree.get, h]
  | cons k v rest ih =>
    by_cases hk : k = s
    · subst hk
      simp [Tree.insert, Tree.get, h]
    · simp [Tree.insert, hk]
      by_cases hk' : k = s'
      · simp [Tree.get, hk']
      · simp [Tree.get, hk', ih]

theorem Tree.containsKey_iff_mem_keys (t : Tree) (s : String) :
    t.containsKey s = true ↔ s ∈ t.keys := by
  induction t with
  | nil => simp [Tree.containsKey, Tree.get, Tree.keys]
  | cons k v rest ih =>
    by_cases h : k = s
    · simp [Tree.containsKey, Tree.get, Tree.keys, h]
    · simp only [Tree.containsKey, Tree.get, Tree.keys, if_neg h]
      rw [← Tree.containsKey]
      rw [ih]
      constructor
      · exact fun hm => List.mem_cons_of_mem _ hm
      · intro hm
        rcases List.mem_cons.mp hm with hk | hk
        · exact absurd hk.symm h
        · exact hk

theorem Tree.keys_length (t : Tree) : t.keys.length = t.size := by
  induction t with
  | nil => rfl
  | cons k v rest ih => simp [Tree.keys, Tree.size, ih]

/-! ## Injectivity of generated names -/

theorem string_data_append (a b : String) : (a ++ b).data = a.data ++ b.data :=
  rfl

/-- For a fixed base and extension, distinct indices generate distinct
names. -/
theorem dataName_injective (base ext : String) :
    Function.Injective (dataName base ext) := by
  have key : ∀ i j : Nat, 0 < i → 0 < j →
      dataName base ext i = dataName base ext j → i = j := by
    intro i j hi hj h
    unfold dataName at h
    rw [if_pos hi, if_pos hj] at h
    have hd := congrArg String.data h
    simp only [string_data_append, List.append_assoc] at hd
    have h1 := List.append_cancel_left hd
    have h2 := List.append_cancel_left h1
    have h3 := List.append_cancel_right h2
    exact natRepr_injective (by apply String.ext; exact h3)
  have zero_ne : ∀ j : Nat, 0 < j → dataName base ext 0 ≠ dataName base ext j := by
    intro j hj h
    unfold dataName at h
    rw [if_neg (by omega), if_pos hj] at h
    have hd := congrArg String.data h
    simp only [string_data_append, List.append_assoc] at hd
    have h1 := List.append_cancel_left hd
    simp [show (".".data : List Char) = ['.'] from rfl,
      show (" (".data : List Char) = [' ', '('] from rfl] at h1
  intro i j h
  rcases Nat.eq_zero_or_pos i with hi | hi <;>
    rcases Nat.eq_zero_or_pos j with hj | hj
  · omega
  · exact absurd (hi ▸ h) (zero_ne j hj)
  · exact absurd (hj ▸ h).symm (zero_ne i hi)
  · exact key i j hi hj h

/-- `Entry::name` is injective in the index for non-directory entries
(the source panics on directories). -/
theorem entryName_injective (tbl : MimeTable) (e : Entry)
    (h : ∀ t, e ≠ Entry.directory t) :
    Function.Injective (entryName tbl e) := by
  cases e with
  | directory t => exact absurd rfl (h t)
  | item it =>
    intro i j hij
    exact dataName_injective _ _ hij
  | link ts tg =>
    intro i j hij
    exact dataName_injective _ _ hij

/-! ## The collision-suffix loop finds the least free index -/

/-- There is a free name among the first `t.size + 1` candidates. -/
theorem exists_free_name (tbl : MimeTable) (t : Tree) (e : Entry)
    (he : Function.Injective (entryName tbl e)) :
    ∃ i, i ≤ t.size ∧ t.containsKey (entryName tbl e i) = false := by
  by_contra hall
  push_neg at hall
  have hmem : ∀ i ≤ t.size, entryName tbl e i ∈ t.keys := by
    intro i hi
    have := hall i hi
    rw [← Tree.containsKey_iff_mem_keys]
    revert this
    cases t.containsKey (entryName tbl e i) <;> simp
  have hcard : (Finset.range (t.size + 1)).card ≤ t.keys.toFinset.card := by
    apply Finset.card_le_card_of_injOn (fun i => entryName tbl e i)
    · intro i hi
      rw [List.mem_toFinset]
      exact hmem i (by simpa using Nat.lt_succ_iff.mp (Finset.mem_range.mp hi))
    · intro a _ b _ hab
      exact he hab
  have hlen : t.keys.toFinset.card ≤ t.keys.length := t.keys.toFinset_card_le
  have hkl := Tree.keys_length t
  rw [Finset.card_range] at hcard
  omega

theorem freeIndexAux_spec (tbl : MimeTable) (t : Tree) (e : Entry)
    (fuel i : Nat)
    (h : ∃ j, i ≤ j ∧ j < i + fuel ∧ t.containsKey (entryName tbl e j) = false) :
    t.containsKey (entryName tbl e (freeIndexAux tbl t e fuel i)) = false ∧
      i ≤ freeIndexAux tbl t e fuel i ∧
      ∀ k, i ≤ k → k < freeIndexAux tbl t e fuel i →
        t.containsKey (entryName tbl e k) = true := by
  induction fuel generalizing i with
  | zero =>
    rcases h with ⟨j, hij, hj, _⟩
    omega
  | succ fuel ih =>
    rw [freeIndexAux]
    cases hc : t.containsKey (entryName tbl e i) with
    | false =>
      simp only [Bool.false_eq_true, if_false]
      exact ⟨hc, le_refl i, fun k hk hk' => absurd (lt_of_le_of_lt hk hk') (lt_irrefl i)⟩
    | true =>
      simp only [if_true]
      rcases h with ⟨j, hij, hj, hfree⟩
      have hji : j ≠ i := by
        intro hji
        rw [hji] at hfree
        rw [hfree] at hc
        exact Bool.false_ne_true hc
      have ⟨r1, r2, r3⟩ := ih (i + 1) ⟨j, by omega, by omega, hfree⟩
      refine ⟨r1, by omega, ?_⟩
      intro k hk hk'
      rcases Nat.eq_or_lt_of_le hk with hk0 | hk0
      · subst hk0
        exact hc
      · exact r3 k hk0 hk'

/-- The index `Cache::add_with_index` settles on: the generated name is
free, and every smaller index generates a name already present. -/
theorem freeIndex_spec (tbl : MimeTable) (t : Tree) (e : Entry)
    (he : Function.Injective (entryName tbl e)) :
    t.containsKey (freshName tbl t e) = false ∧
      ∀ k < freeIndex tbl t e, t.containsKey (entryName tbl e k) = true := by
  rcases exists_free_name tbl t e he with ⟨j, hj, hfree⟩
  have ⟨r1, _, r3⟩ := freeIndexAux_spec tbl t e (t.size + 1) 0
    ⟨j, Nat.zero_le j, by omega, hfree⟩
  exact ⟨r1, fun k hk => r3 k (Nat.zero_le k) hk⟩

/-! ## Unfolding equations for `insertEntry` -/

theorem insertEntry_nil_dir (tbl : MimeTable) (t : Tree) (x : Entry) :
    insertEntry tbl (Entry.directory t) [] x =
      (Entry.directory (t.insert (freshName tbl t x) x), some (freshName tbl t x)) :=
  rfl

theorem insertEntry_nil_item (tbl : MimeTable) (it : Item) (x : Entry) :
    insertEntry tbl (Entry.item it) [] x = (Entry.item it, none) :=
  rfl

theorem insertEntry_nil_link (tbl : MimeTable) (ts : Timespec)
    (tg : List Component) (x : Entry) :
    insertEntry tbl (Entry.link ts tg) [] x = (Entry.link ts tg, none) :=
  rfl

theorem insertEntry_rootDir (tbl : MimeTable) (e x : Entry) (rest : List Component) :
    insertEntry tbl e (Component.rootDir :: rest) x = insertEntry tbl e rest x :=
  rfl

theorem insertEntry_curDir (tbl : MimeTable) (e x : Entry) (rest : List Component) :
    insertEntry tbl e (Component.curDir :: rest) x = insertEntry tbl e rest x :=
  rfl

theorem insertEntry_parentDir (tbl : MimeTable) (e x : Entry) (rest : List Component) :
    insertEntry tbl e (Component.parentDir :: rest) x = (e, none) :=
  rfl

theorem insertEntry_pfx (tbl : MimeTable) (e x : Entry) (s : String)
    (rest : List Component) :
    insertEntry tbl e (Component.pfx s :: rest) x = (e, none) :=
  rfl

theorem insertEntry_normal_dir (tbl : MimeTable) (t : Tree) (s : String)
    (rest : List Component) (x : Entry) :
    insertEntry tbl (Entry.directory t) (Component.normal s :: rest) x =
      (Entry.directory (t.insert s
        (insertEntry tbl ((t.get s).getD (Entry.directory Tree.nil)) rest x).1),
       (insertEntry tbl ((t.get s).getD (Entry.directory Tree.nil)) rest x).2) :=
  rfl

theorem insertEntry_normal_item (tbl : MimeTable) (it : Item) (s : String)
    (rest : List Component) (x : Entry) :
    insertEntry tbl (Entry.item it) (Component.normal s :: rest) x =
      (Entry.item it, none) :=
  rfl

theorem insertEntry_normal_link (tbl : MimeTable) (ts : Timespec)
    (tg : List Component) (s : String) (rest : List Component) (x : Entry) :
    insertEntry tbl (Entry.link ts tg) (Component.normal s :: rest) x =
      (Entry.link ts tg, none) :=
  rfl

/-! ## The extension preorder on entries

`Entry.Ext e e'` says `e'` refines `e` by at most adding directory
children: leaves are unchanged, and every binding of a directory persists
(with an extended value).  `Cache::add` only ever extends the tree in
this sense (claim C10). -/

theorem sizeOf_get (t : Tree) (k : String) (v : Entry) (h : t.get k = some v) :
    sizeOf v < sizeOf t := by
  induction t with
  | nil => simp [Tree.get] at h
  | cons k' v' rest ih =>
    rw [Tree.get] at h
    by_cases hk : k' = k
    · rw [if_pos hk] at h
      obtain rfl := Option.some.inj h
      simp
      omega
    · rw [if_neg hk] at h
      have := ih h
      simp
      omega

/-- Entry extension: items and links persist unchanged; every binding of
a directory persists, with an extended value. -/
def Entry.Ext : Entry → Entry → Prop
  | Entry.item it, b => b = Entry.item it
  | Entry.link ts tg, b => b = Entry.link ts tg
  | Entry.directory t, b =>
    ∃ t', b = Entry.directory t' ∧
      ∀ k v, t.get k = some v → ∃ v', t'.get k = some v' ∧ Entry.Ext v v'
termination_by a _ => sizeOf a
decreasing_by
  rename_i hkv
  have := sizeOf_get t k v hkv
  simp
  omega

theorem Ext_item_iff (it : Item) (b : Entry) :
    Entry.Ext (Entry.item it) b ↔ b = Entry.item it := by
  rw [Entry.Ext]

theorem Ext_link_iff (ts : Timespec) (tg : List Component) (b : Entry) :
    Entry.Ext (Entry.link ts tg) b ↔ b = Entry.link ts tg := by
  rw [Entry.Ext]

theorem Ext_dir_iff (t : Tree) (b : Entry) :
    Entry.Ext (Entry.directory t) b ↔
      ∃ t', b = Entry.directory t' ∧
        ∀ k v, t.get k = some v → ∃ v', t'.get k = some v' ∧ Entry.Ext v v' := by
  rw [Entry.Ext]

theorem Ext_refl : (e : Entry) → Entry.Ext e e
  | Entry.item it => by rw [Ext_item_iff]
  | Entry.link ts tg => by rw [Ext_link_iff]
  | Entry.directory t => by
    rw [Ext_dir_iff]
    exact ⟨t, rfl, fun k v h => ⟨v, h, Ext_refl v⟩⟩
termination_by e => sizeOf e
decreasing_by
  have := sizeOf_get t k v h
  simp
  omega

theorem Ext_trans : {a b c : Entry} → Entry.Ext a b → Entry.Ext b c → Entry.Ext a c
  | Entry.item it, _, c, h1, h2 => by
    rw [Ext_item_iff] at h1
    subst h1
    exact h2
  | Entry.link ts tg, _, c, h1, h2 => by
    rw [Ext_link_iff] at h1
    subst h1
    exact h2
  | Entry.directory t, b, c, h1, h2 => by
    rw [Ext_dir_iff] at h1
    obtain ⟨t', rfl, hch⟩ := h1
    rw [Ext_dir_iff] at h2
    obtain ⟨t'', rfl, hch'⟩ := h2
    rw [Ext_dir_iff]
    refine ⟨t'', rfl, fun k v hv => ?_⟩
    obtain ⟨v', hg', he1⟩ := hch k v hv
    obtain ⟨v'', hg'', he2⟩ := hch' k v' hg'
    exact ⟨v'', hg'', Ext_trans he1 he2⟩
termination_by a _ _ _ _ => sizeOf a
decreasing_by
  have := sizeOf_get t k v hv
  simp
  omega

/-- Lookups persist along extension: anything found before is still found
afterwards, extended. -/
theorem Ext_lookup {e e' : Entry} (h : Entry.Ext e e') (p : List Component)
    (v : Entry) (hv : lookupFrom e p = some v) :
    ∃ v', lookupFrom e' p = some v' ∧ Entry.Ext v v' := by
  induction p generalizing e e' with
  | nil =>
    simp [lookupFrom] at hv
    exact ⟨e', by simp [lookupFrom], hv ▸ h⟩
  | cons c rest ih =>
    cases c with
    | rootDir => exact ih h (by simpa [lookupFrom_cons, lookupStep] using hv)
    | curDir => exact ih h (by simpa [lookupFrom_cons, lookupStep] using hv)
    | parentDir =>
      rw [lookupFrom_cons] at hv
      simp [lookupStep, foldl_lookupStep_none] at hv
    | pfx s =>
      rw [lookupFrom_cons] at hv
      simp [lookupStep, foldl_lookupStep_none] at hv
    | normal s =>
      cases e with
      | item it =>
        rw [lookupFrom_cons] at hv
        simp [lookupStep, foldl_lookupStep_none] at hv
      | link ts tg =>
        rw [lookupFrom_cons] at hv
        simp [lookupStep, foldl_lookupStep_none] at hv
      | directory t =>
        rw [Ext_dir_iff] at h
        obtain ⟨t', rfl, hdir⟩ := h
        have hv2 : List.foldl lookupStep (t.get s) rest = some v := hv
        cases hg : t.get s with
        | none =>
          rw [hg, foldl_lookupStep_none] at hv2
          exact absurd hv2 (by simp)
        | some child =>
          rw [hg] at hv2
          obtain ⟨child', hget', hext'⟩ := hdir s child hg
          obtain ⟨v', hv', he'⟩ := ih hext' hv2
          refine ⟨v', ?_, he'⟩
          have hv3 : List.foldl lookupStep (t'.get s) rest = some v' := by
            rw [hget']
            exact hv'
          exact hv3

/-- A directory entry is never inserted through the collision-suffix
path. -/
def nonDir : Entry → Prop
  | Entry.directory _ => False
  | _ => True

theorem entryName_injective_of_nonDir (tbl : MimeTable) (x : Entry)
    (hx : nonDir x) : Function.Injective (entryName tbl x) := by
  apply entryName_injective
  intro t' ht'
  cases x <;> simp_all [nonDir]

/-- `insertEntry` only extends the entry it operates on: existing
bindings persist (the inserted name is fresh, and missing ancestors are
created with `or_insert_with`). -/
theorem insertEntry_Ext (tbl : MimeTable) (q : List Component) (e x : Entry)
    (hx : nonDir x) :
    Entry.Ext e (insertEntry tbl e q x).1 := by
  induction q generalizing e with
  | nil =>
    cases e with
    | directory t =>
      rw [insertEntry_nil_dir]
      rw [Ext_dir_iff]
      refine ⟨_, rfl, fun k v hv => ?_⟩
      have hfree : t.containsKey (freshName tbl t x) = false :=
        (freeIndex_spec tbl t x (entryName_injective_of_nonDir tbl x hx)).1
      have hk : k ≠ freshName tbl t x := by
        intro hk
        rw [hk] at hv
        simp [Tree.containsKey, hv] at hfree
      refine ⟨v, ?_, Ext_refl v⟩
      rw [Tree.get_insert_ne t _ k x (fun hke => hk hke.symm)]
      exact hv
    | item it => exact Ext_refl _
    | link ts tg => exact Ext_refl _
  | cons c rest ih =>
    cases c with
    | rootDir => rw [insertEntry_rootDir]; exact ih e
    | curDir => rw [insertEntry_curDir]; exact ih e
    | parentDir => rw [insertEntry_parentDir]; exact Ext_refl e
    | pfx s => rw [insertEntry_pfx]; exact Ext_refl e
    | normal s =>
      cases e with
      | directory t =>
        rw [insertEntry_normal_dir]
        rw [Ext_dir_iff]
        refine ⟨_, rfl, fun k v hv => ?_⟩
        by_cases hk : k = s
        · subst hk
          have hchild : (t.get k).getD (Entry.directory Tree.nil) = v := by
            rw [hv]
            rfl
          rw [← hchild]
          exact ⟨_, Tree.get_insert_self t k _,
            ih ((t.get k).getD (Entry.directory Tree.nil))⟩
        · refine ⟨v, ?_, Ext_refl v⟩
          rw [Tree.get_insert_ne t s k _ (fun hke => hk hke.symm)]
          exact hv
      | item it => rw [insertEntry_normal_item]; exact Ext_refl _
      | link ts tg => rw [insertEntry_normal_link]; exact Ext_refl _

/-- After a successful insertion, looking up `directory/<name>` finds the
inserted entry. -/
theorem insertEntry_lookup (tbl : MimeTable) (q : List Component) (x : Entry) :
    ∀ (e e' : Entry) (n : String), insertEntry tbl e q x = (e', some n) →
      lookupFrom e' (q ++ [Component.normal n]) = some x := by
  induction q with
  | nil =>
    intro e e' n h
    cases e with
    | directory t =>
      rw [insertEntry_nil_dir] at h
      have he' := congrArg Prod.fst h
      have hn := Option.some.inj (congrArg Prod.snd h)
      simp only at he' hn
      subst hn
      rw [← he']
      simp [lookupFrom, lookupStep, Tree.get_insert_self]
    | item it => rw [insertEntry_nil_item] at h; simp at h
    | link ts tg => rw [insertEntry_nil_link] at h; simp at h
  | cons c rest ih =>
    intro e e' n h
    cases c with
    | rootDir =>
      rw [insertEntry_rootDir] at h
      exact ih e e' n h
    | curDir =>
      rw [insertEntry_curDir] at h
      exact ih e e' n h
    | parentDir => rw [insertEntry_parentDir] at h; simp at h
    | pfx s => rw [insertEntry_pfx] at h; simp at h
    | normal s =>
      cases e with
      | directory t =>
        rw [insertEntry_normal_dir] at h
        have he' := congrArg Prod.fst h
        have hn := congrArg Prod.snd h
        simp only at he' hn
        have heq : insertEntry tbl ((t.get s).getD (Entry.directory Tree.nil)) rest x =
            ((insertEntry tbl ((t.get s).getD (Entry.directory Tree.nil)) rest x).1,
              some n) := by
          rw [← hn]
        have hrec := ih ((t.get s).getD (Entry.directory Tree.nil))
          (insertEntry tbl ((t.get s).getD (Entry.directory Tree.nil)) rest x).1 n heq
        rw [← he']
        have h2 : List.foldl lookupStep
            ((t.insert s
              (insertEntry tbl ((t.get s).getD (Entry.directory Tree.nil)) rest x).1).get s)
            (rest ++ [Component.normal n]) = some x := by
          rw [Tree.get_insert_self]
          exact hrec
        exact h2
      | item it => rw [insertEntry_normal_item] at h; simp at h
      | link ts tg => rw [insertEntry_normal_link] at h; simp at h

/-! ## Cache-level lemmas -/

theorem add_item_root (tbl : MimeTable) (c : Cache) (dir : List Component)
    (it : Item) :
    (c.add_item tbl dir it).1.root = (insertEntry tbl c.root dir (Entry.item it)).1 := by
  unfold Cache.add_item
  cases h : insertEntry tbl c.root dir (Entry.item it) with
  | mk r o => cases o <;> rfl

theorem add_item_snd (tbl : MimeTable) (c : Cache) (dir : List Component)
    (it : Item) :
    (c.add_item tbl dir it).2 =
      (insertEntry tbl c.root dir (Entry.item it)).2.map
        (fun n => dir ++ [Component.normal n]) := by
  unfold Cache.add_item
  cases h : insertEntry tbl c.root dir (Entry.item it) with
  | mk r o => cases o <;> rfl

theorem add_item_fields (tbl : MimeTable) (c : Cache) (dir : List Component)
    (it : Item) :
    (c.add_item tbl dir it).1.timestamp_root = c.timestamp_root ∧
      (c.add_item tbl dir it).1.tagged_root = c.tagged_root := by
  unfold Cache.add_item
  cases h : insertEntry tbl c.root dir (Entry.item it) with
  | mk r o => cases o <;> exact ⟨rfl, rfl⟩

theorem add_link_root (tbl : MimeTable) (c : Cache) (dir path : List Component)
    (it : Item) :
    (c.add_link tbl dir path it).root =
      (insertEntry tbl c.root dir
        (Entry.link it.timestamp.toTimespec
          (pathPush (List.replicate dir.length Component.parentDir) path))).1 :=
  rfl

theorem add_link_Ext (tbl : MimeTable) (c : Cache) (dir path : List Component)
    (it : Item) :
    Entry.Ext c.root (c.add_link tbl dir path it).root := by
  rw [add_link_root]
  exact insertEntry_Ext tbl dir c.root _ trivial

/-- The cache produced by folding `add_link` over the tags only extends
the given cache's root. -/
theorem fold_add_link_Ext (tbl : MimeTable) (tags : List Tag)
    (path : List Component) (it : Item) :
    ∀ c : Cache,
      Entry.Ext c.root
        ((tags.foldl (fun cc tag => cc.add_link tbl (tagDirOf cc tag) path it) c).root) := by
  induction tags with
  | nil => exact fun c => Ext_refl c.root
  | cons tag rest ih =>
    intro c
    rw [List.foldl_cons]
    exact Ext_trans (add_link_Ext tbl c (tagDirOf c tag) path it)
      (ih (c.add_link tbl (tagDirOf c tag) path it))

/-- `Cache::add` unfolded. -/
theorem Cache.add_eq (tbl : MimeTable) (c : Cache) (it : Item) :
    c.add tbl it =
      match c.add_item tbl (tsDirOf c it) it with
      | (c', some path) =>
        (it.tags.foldl (fun cc tag => cc.add_link tbl (tagDirOf cc tag) path it) c',
          some path)
      | (c', none) => (c', none) :=
  rfl

/-- `Cache::add` only extends the root. -/
theorem add_root_Ext (tbl : MimeTable) (c : Cache) (it : Item) :
    Entry.Ext c.root ((c.add tbl it).1).root := by
  rw [Cache.add_eq]
  have hbase : Entry.Ext c.root (c.add_item tbl (tsDirOf c it) it).1.root := by
    rw [add_item_root]
    exact insertEntry_Ext tbl (tsDirOf c it) c.root _ trivial
  cases hai : c.add_item tbl (tsDirOf c it) it with
  | mk c1 o =>
    cases o with
    | none =>
      simp only []
      rw [hai] at hbase
      exact hbase
    | some path =>
      simp only []
      rw [hai] at hbase
      exact Ext_trans hbase (fold_add_link_Ext tbl it.tags path it c1)

/-- When `assert_exists` focuses a directory `t`, the fused insertion
succeeds and returns the name generated from the first free index of
`t`. -/
theorem insertEntry_of_navFocus (tbl : MimeTable) (q : List Component) (x : Entry) :
    ∀ (e : Entry) (t : Tree), navFocus e q = some (Entry.directory t) →
      (insertEntry tbl e q x).2 = some (freshName tbl t x) := by
  induction q with
  | nil =>
    intro e t hf
    rw [navFocus] at hf
    obtain rfl := Option.some.inj hf
    rw [insertEntry_nil_dir]
  | cons c rest ih =>
    intro e t hf
    cases c with
    | rootDir =>
      rw [insertEntry_rootDir]
      exact ih e t hf
    | curDir =>
      rw [insertEntry_curDir]
      exact ih e t hf
    | parentDir => rw [navFocus] at hf; simp at hf
    | pfx s => rw [navFocus] at hf; simp at hf
    | normal s =>
      cases e with
      | directory t0 =>
        rw [insertEntry_normal_dir]
        exact ih _ t hf
      | item it => rw [navFocus] at hf; simp at hf
      | link ts tg => rw [navFocus] at hf; simp at hf

/-- The converse direction: a successful insertion means the walk focused
a directory. -/
theorem navFocus_of_insertEntry (tbl : MimeTable) (q : List Component) (x : Entry) :
    ∀ (e : Entry) (n : String), (insertEntry tbl e q x).2 = some n →
      ∃ t, navFocus e q = some (Entry.directory t) := by
  induction q with
  | nil =>
    intro e n h
    cases e with
    | directory t => exact ⟨t, by rw [navFocus]⟩
    | item it => rw [insertEntry_nil_item] at h; simp at h
    | link ts tg => rw [insertEntry_nil_link] at h; simp at h
  | cons c rest ih =>
    intro e n h
    cases c with
    | rootDir =>
      rw [insertEntry_rootDir] at h
      exact ih e n h
    | curDir =>
      rw [insertEntry_curDir] at h
      exact ih e n h
    | parentDir => rw [insertEntry_parentDir] at h; simp at h
    | pfx s => rw [insertEntry_pfx] at h; simp at h
    | normal s =>
      cases e with
      | directory t0 =>
        rw [insertEntry_normal_dir] at h
        simp only at h
        exact ih _ n h
      | item it => rw [insertEntry_normal_item] at h; simp at h
      | link ts tg => rw [insertEntry_normal_link] at h; simp at h

/-! ## Claim theorems -/

/-- C1: if `cache.add(item)` succeeds with path `p`, then `p` is
`<timestamp_root>/YYYY/MM/DD/<name>` — the year unpadded, month and day
zero-padded to two digits — and `cache.lookup(p)` yields an `Item` entry
equal to `item`. -/
theorem claim_C1 (tbl : MimeTable) (c c' : Cache) (it : Item)
    (p : List Component) (h : c.add tbl it = (c', some p)) :
    (∃ n, p = parsePath c.timestamp_root ++
        [Component.normal (Int.repr it.timestamp.year),
         Component.normal (pad2 it.timestamp.month),
         Component.normal (pad2 it.timestamp.day),
         Component.normal n]) ∧
      c'.lookup p = some (Entry.item it) := by
  rw [Cache.add_eq] at h
  rcases hai : c.add_item tbl (tsDirOf c it) it with ⟨c1, o⟩
  rw [hai] at h
  cases o with
  | none => simp at h
  | some p0 =>
    simp only [] at h
    have hc' := congrArg Prod.fst h
    have hp := congrArg Prod.snd h
    simp only [Option.some.injEq] at hc' hp
    subst hp
    have hroot := add_item_root tbl c (tsDirOf c it) it
    have hsnd := add_item_snd tbl c (tsDirOf c it) it
    rw [hai] at hroot hsnd
    simp only [] at hroot hsnd
    cases hins : (insertEntry tbl c.root (tsDirOf c it) (Entry.item it)).2 with
    | none => rw [hins] at hsnd; simp at hsnd
    | some n =>
      rw [hins] at hsnd
      have hsnd2 : some p0 = some (tsDirOf c it ++ [Component.normal n]) := hsnd
      obtain rfl := Option.some.inj hsnd2
      constructor
      · exact ⟨n, by simp [tsDirOf, List.append_assoc]⟩
      · have heta : insertEntry tbl c.root (tsDirOf c it) (Entry.item it) =
            ((insertEntry tbl c.root (tsDirOf c it) (Entry.item it)).1, some n) := by
          rw [← hins]
        have hlk := insertEntry_lookup tbl (tsDirOf c it) (Entry.item it)
          c.root _ n heta
        rw [← hroot] at hlk
        have hext : Entry.Ext c1.root c'.root := by
          rw [← hc']
          exact fold_add_link_Ext tbl it.tags _ it c1
        obtain ⟨v', hv', he⟩ := Ext_lookup hext _ _ hlk
        rw [Ext_item_iff] at he
        subst he
        exact hv'

/-- C10: `add(item)` never deletes or replaces an existing entry: every
path that resolved before still resolves, leaf entries are unchanged and
directories at most gain children. -/
theorem claim_C10 (tbl : MimeTable) (c : Cache) (it : Item)
    (p : List Component) (v : Entry) (h : c.lookup p = some v) :
    ∃ v', ((c.add tbl it).1).lookup p = some v' ∧ Entry.Ext v v' ∧
      (∀ it0, v = Entry.item it0 → v' = Entry.item it0) ∧
      (∀ ts tg, v = Entry.link ts tg → v' = Entry.link ts tg) := by
  obtain ⟨v', hv', he⟩ := Ext_lookup (add_root_Ext tbl c it) p v h
  refine ⟨v', hv', he, ?_, ?_⟩
  · intro it0 hv0
    subst hv0
    exact (Ext_item_iff it0 v').mp he
  · intro ts tg hv0
    subst hv0
    exact (Ext_link_iff ts tg v').mp he

/-- C2 (amended): when `assert_exists` yields a directory for the tag
directory `d`, `add_link` inserts a symlink carrying the item's timestamp
whose target is one `..` component per component of `d` followed by the
item's path — when that path is relative; when the item's path is
absolute, `PathBuf::push` replaces the accumulated `..` components, and
the target is the item's path alone. -/
theorem claim_C2 (tbl : MimeTable) (c : Cache) (dir path : List Component)
    (it : Item) (t : Tree)
    (hfoc : navFocus c.root dir = some (Entry.directory t)) :
    (c.add_link tbl dir path it).lookup
        (dir ++ [Component.normal
          (freshName tbl t (Entry.link it.timestamp.toTimespec
            (if pathIsAbsolute path then path
             else List.replicate dir.length Component.parentDir ++ path)))]) =
      some (Entry.link it.timestamp.toTimespec
        (if pathIsAbsolute path then path
         else List.replicate dir.length Component.parentDir ++ path)) := by
  have hrel : pathPush (List.replicate dir.length Component.parentDir) path =
      (if pathIsAbsolute path then path
       else List.replicate dir.length Component.parentDir ++ path) := by
    unfold pathPush
    by_cases hb : pathIsAbsolute path <;> simp [hb]
  have hsnd := insertEntry_of_navFocus tbl dir
    (Entry.link it.timestamp.toTimespec
      (pathPush (List.replicate dir.length Component.parentDir) path))
    c.root t hfoc
  have heta : insertEntry tbl c.root dir
      (Entry.link it.timestamp.toTimespec
        (pathPush (List.replicate dir.length Component.parentDir) path)) =
      ((insertEntry tbl c.root dir
        (Entry.link it.timestamp.toTimespec
          (pathPush (List.replicate dir.length Component.parentDir) path))).1,
        some (freshName tbl t
          (Entry.link it.timestamp.toTimespec
            (pathPush (List.replicate dir.length Component.parentDir) path)))) := by
    rw [← hsnd]
  have hlk := insertEntry_lookup tbl dir _ c.root _ _ heta
  rw [hrel] at hlk
  show lookupFrom (c.add_link tbl dir path it).root _ = _
  rw [add_link_root, hrel]
  exact hlk

/-! ## Subtree timestamps (claim C5) -/

theorem tsMax_self (a : Timespec) : tsMax a a = a := by
  unfold tsMax
  split <;> rfl

theorem tsMax_assoc (a b c : Timespec) :
    tsMax (tsMax a b) c = tsMax a (tsMax b c) := by
  cases a with
  | mk as an =>
    cases b with
    | mk bs bn =>
      cases c with
      | mk cs cn =>
        simp only [tsMax, Timespec.le]
        split_ifs <;>
          first
          | rfl
          | (simp_all [Timespec.mk.injEq]; omega)

theorem maxTsList_singleton (x : Timespec) : maxTsList [x] = x := by
  rw [maxTsList]

theorem maxTsList_cons_ne (x : Timespec) (l : List Timespec) (h : l ≠ []) :
    maxTsList (x :: l) = tsMax x (maxTsList l) := by
  cases l with
  | nil => exact absurd rfl h
  | cons y rest => rw [maxTsList]

theorem maxTsList_append : (l₁ : List Timespec) → ∀ l₂ : List Timespec,
    l₁ ≠ [] → l₂ ≠ [] →
    maxTsList (l₁ ++ l₂) = tsMax (maxTsList l₁) (maxTsList l₂)
  | [], _, h₁, _ => absurd rfl h₁
  | [x], l₂, _, h₂ => by
    rw [List.singleton_append, maxTsList_cons_ne x l₂ h₂, maxTsList_singleton]
  | x :: y :: rest, l₂, _, h₂ => by
    rw [List.cons_append, maxTsList_cons_ne x _ (by simp),
      maxTsList_append (y :: rest) l₂ (by simp) h₂, ← tsMax_assoc]
    rfl

mutual

/-- The maximum over an entry and its descendants is the entry's own
(rolled-up) timestamp. -/
theorem entry_block_max : (e : Entry) →
    maxTsList (Entry.timestamp e :: (Entry.descendants e).map Entry.timestamp) =
      Entry.timestamp e
  | Entry.item it => by rw [Entry.descendants]; exact maxTsList_singleton _
  | Entry.link ts tg => by rw [Entry.descendants]; exact maxTsList_singleton _
  | Entry.directory t => by
    rw [Entry.descendants]
    cases hd : (Tree.descList t).map Entry.timestamp with
    | nil => exact maxTsList_singleton _
    | cons z zs =>
      rw [maxTsList_cons_ne _ _ (by simp), ← hd, tree_desc_max t,
        Entry.timestamp]
      exact tsMax_self _

/-- The maximum over all entries reachable in a tree equals the tree's
rolled-up timestamp. -/
theorem tree_desc_max : (t : Tree) →
    maxTsList ((Tree.descList t).map Entry.timestamp) = Tree.maxTimestamp t
  | Tree.nil => by rw [Tree.descList, Tree.maxTimestamp]; rfl
  | Tree.cons k e Tree.nil => by
    rw [Tree.descList, Tree.descList]
    simp only [List.append_nil, List.map_cons]
    rw [entry_block_max e, Tree.maxTimestamp]
  | Tree.cons k e (Tree.cons k' e' rest) => by
    rw [Tree.descList]
    rw [List.map_append]
    rw [maxTsList_append _ _ (by simp) ?hne]
    case hne =>
      rw [Tree.descList]
      simp
    rw [List.map_cons]
    rw [entry_block_max e]
    rw [tree_desc_max (Tree.cons k' e' rest)]
    rw [Tree.maxTimestamp]

end

/-- C5: a directory's `timestamp()` is the maximum of its transitive
descendant entries' timestamps — the zero timestamp when it is empty —
while items and links return their own timestamp. -/
theorem claim_C5 (e : Entry) :
    (∀ t, e = Entry.directory t →
      e.timestamp = maxTsList ((Entry.descendants e).map Entry.timestamp) ∧
        (t = Tree.nil → e.timestamp = ⟨0, 0⟩)) ∧
    (∀ it, e = Entry.item it → e.timestamp = it.timestamp.toTimespec) ∧
    (∀ ts tg, e = Entry.link ts tg → e.timestamp = ts) := by
  refine ⟨?_, ?_, ?_⟩
  · intro t he
    subst he
    refine ⟨?_, ?_⟩
    · rw [Entry.descendants, tree_desc_max t, Entry.timestamp]
    · intro ht
      subst ht
      rw [Entry.timestamp, Tree.maxTimestamp]
  · intro it he
    subst he
    rw [Entry.timestamp]
  · intro ts tg he
    subst he
    rw [Entry.timestamp]

/-! ## Clearing and `replace_all` (claim C4) -/

/-- A cleared root is an empty directory or an unchanged leaf. -/
theorem clear_shape (e : Entry) :
    Entry.clear e = Entry.directory Tree.nil ∨ nonDir (Entry.clear e) := by
  cases e <;> simp [Entry.clear, nonDir]

/-- Nothing with a normal component resolves in a cleared root. -/
theorem clear_lookup_none :
    ∀ (p : List Component) (e : Entry),
      (e = Entry.directory Tree.nil ∨ nonDir e) →
      (∃ s, Component.normal s ∈ p) → lookupFrom e p = none := by
  intro p
  induction p with
  | nil =>
    intro e _ hs
    obtain ⟨s, hs⟩ := hs
    simp at hs
  | cons c rest ih =>
    intro e he hs
    cases c with
    | rootDir =>
      obtain ⟨s, hs⟩ := hs
      have : Component.normal s ∈ rest := by
        rcases List.mem_cons.mp hs with h | h
        · exact absurd h (by simp)
        · exact h
      exact ih e he ⟨s, this⟩
    | curDir =>
      obtain ⟨s, hs⟩ := hs
      have : Component.normal s ∈ rest := by
        rcases List.mem_cons.mp hs with h | h
        · exact absurd h (by simp)
        · exact h
      exact ih e he ⟨s, this⟩
    | parentDir =>
      rw [lookupFrom_cons]
      cases e <;> exact foldl_lookupStep_none rest
    | pfx s =>
      rw [lookupFrom_cons]
      cases e <;> exact foldl_lookupStep_none rest
    | normal s =>
      rcases he with he | he
      · subst he
        rw [lookupFrom_cons]
        show List.foldl lookupStep (Tree.get Tree.nil s) rest = none
        rw [Tree.get, foldl_lookupStep_none]
      · cases e with
        | directory t => exact absurd he (by simp [nonDir])
        | item it =>
          rw [lookupFrom_cons]
          exact foldl_lookupStep_none rest
        | link ts tg =>
          rw [lookupFrom_cons]
          exact foldl_lookupStep_none rest

/-- `add_iter` on a sequence whose prefix succeeds and whose next item is
rejected returns that item and the state reached. -/
theorem add_iter_split (tbl : MimeTable) :
    ∀ (pre : List Item) (c : Cache) (rej : Item) (rest : List Item),
      addsOk tbl c pre → ((foldAdd tbl c pre).add tbl rej).2 = none →
      Cache.add_iter tbl c (pre ++ rej :: rest) =
        (((foldAdd tbl c pre).add tbl rej).1, some rej) := by
  intro pre
  induction pre with
  | nil =>
    intro c rej rest _ h2
    rw [List.nil_append, Cache.add_iter]
    rcases hr : c.add tbl rej with ⟨c1, o⟩
    have : o = none := by
      have := h2
      rw [show foldAdd tbl c [] = c from rfl, hr] at this
      exact this
    subst this
    have : (c.add tbl rej).1 = c1 := by rw [hr]
    rw [show foldAdd tbl c [] = c from rfl, this]
  | cons it pre' ih =>
    intro c rej rest hok h2
    obtain ⟨h1, hok'⟩ := hok
    rw [List.cons_append, Cache.add_iter]
    rcases hr : c.add tbl it with ⟨c1, o⟩
    cases o with
    | none => rw [hr] at h1; simp at h1
    | some p =>
      have hfold : foldAdd tbl c (it :: pre') = foldAdd tbl c1 pre' := by
        unfold foldAdd
        rw [List.foldl_cons, hr]
      rw [hfold] at h2
      have hok1 : addsOk tbl c1 pre' := by
        rw [hr] at hok'
        exact hok'
      have := ih c1 rej rest hok1 h2
      rw [hfold]
      exact this

/-- `add_iter` on an all-successful sequence returns no rejected item. -/
theorem add_iter_ok (tbl : MimeTable) :
    ∀ (items : List Item) (c : Cache), addsOk tbl c items →
      Cache.add_iter tbl c items = (foldAdd tbl c items, none) := by
  intro items
  induction items with
  | nil => intro c _; rfl
  | cons it rest ih =>
    intro c hok
    obtain ⟨h1, hok'⟩ := hok
    rw [Cache.add_iter]
    rcases hr : c.add tbl it with ⟨c1, o⟩
    cases o with
    | none => rw [hr] at h1; simp at h1
    | some p =>
      have hfold : foldAdd tbl c (it :: rest) = foldAdd tbl c1 rest := by
        unfold foldAdd
        rw [List.foldl_cons, hr]
      rw [hfold]
      have hok1 : addsOk tbl c1 rest := by
        rw [hr] at hok'
        exact hok'
      exact ih c1 hok1

theorem add_snd_eq (tbl : MimeTable) (c : Cache) (it : Item) :
    (c.add tbl it).2 = (c.add_item tbl (tsDirOf c it) it).2 := by
  rw [Cache.add_eq]
  rcases hai : c.add_item tbl (tsDirOf c it) it with ⟨c1, o⟩
  cases o <;> rfl

/-- An add is rejected exactly when the walk to the generated parent
directory does not reach a directory. -/
theorem add_rejected_iff (tbl : MimeTable) (c : Cache) (it : Item) :
    (c.add tbl it).2 = none ↔
      ¬ ∃ t, navFocus c.root (tsDirOf c it) = some (Entry.directory t) := by
  rw [add_snd_eq, add_item_snd]
  constructor
  · intro h ⟨t, hf⟩
    have := insertEntry_of_navFocus tbl (tsDirOf c it) (Entry.item it) c.root t hf
    rw [this] at h
    simp at h
  · intro h
    cases hs : (insertEntry tbl c.root (tsDirOf c it) (Entry.item it)).2 with
    | none => rfl
    | some n =>
      exact absurd (navFocus_of_insertEntry tbl (tsDirOf c it) (Entry.item it)
        c.root n hs) h

/-- C4: `replace_all` first clears the root — nothing reachable in the
pre-snapshot remains — then adds the items in order; it propagates the
first rejected item (one whose generated parent path does not reach a
directory), leaving the cache in its post-clear state with exactly the
preceding adds applied. -/
theorem claim_C4 (tbl : MimeTable) (c : Cache) (items : List Item) :
    (∀ p, (∃ s, Component.normal s ∈ p) → lookupFrom c.root.clear p = none) ∧
    c.replace_all tbl items =
      Cache.add_iter tbl {c with root := c.root.clear} items ∧
    (∀ pre rej rest, items = pre ++ rej :: rest →
      addsOk tbl {c with root := c.root.clear} pre →
      ((foldAdd tbl {c with root := c.root.clear} pre).add tbl rej).2 = none →
      c.replace_all tbl items =
        (((foldAdd tbl {c with root := c.root.clear} pre).add tbl rej).1, some rej)) ∧
    (addsOk tbl {c with root := c.root.clear} items →
      c.replace_all tbl items =
        (foldAdd tbl {c with root := c.root.clear} items, none)) ∧
    (∀ (c' : Cache) (it : Item), (c'.add tbl it).2 = none ↔
      ¬ ∃ t, navFocus c'.root (tsDirOf c' it) = some (Entry.directory t)) := by
  refine ⟨?_, rfl, ?_, ?_, ?_⟩
  · intro p hp
    exact clear_lookup_none p c.root.clear (clear_shape c.root) hp
  · intro pre rej rest hsplit hok hrej
    rw [Cache.replace_all, hsplit]
    exact add_iter_split tbl pre _ rej rest hok hrej
  · intro hok
    rw [Cache.replace_all]
    exact add_iter_ok tbl items _ hok
  · exact add_rejected_iff tbl

/-! ## Source freshness (claim C6) -/

/-- C6 (amended): `notify` is a no-op when the root's mtime is
unreadable; otherwise it scans and records the stat'd value exactly when
the last-seen timestamp is absent or strictly smaller; consequently, of
two consecutive calls with unchanged mtime the second never scans, and
the first scans only under that condition (at most one scan, not always
exactly one). -/
theorem claim_C6 (m : Int) (s : FsSource) :
    FsSource.notify none s = (s, false) ∧
    ((FsSource.notify (some m) s).2 = true ↔
      s.last = none ∨ ∃ t, s.last = some t ∧ t < m) ∧
    ((FsSource.notify (some m) s).2 = true →
      (FsSource.notify (some m) s).1 = ⟨some m⟩) ∧
    ((FsSource.notify (some m) s).2 = false →
      (FsSource.notify (some m) s).1 = s) ∧
    FsSource.notify (some m) ((FsSource.notify (some m) s).1) =
      ((FsSource.notify (some m) s).1, false) := by
  rcases s with ⟨last⟩
  cases last with
  | none =>
    refine ⟨rfl, by simp [FsSource.notify], by simp [FsSource.notify], ?_, ?_⟩
    · intro h
      simp [FsSource.notify] at h
    · simp [FsSource.notify]
  | some t =>
    by_cases ht : t < m
    · refine ⟨rfl, by simp [FsSource.notify, ht], by simp [FsSource.notify, ht],
        ?_, ?_⟩
      · intro h
        simp [FsSource.notify, ht] at h
      · simp [FsSource.notify, ht]
    · refine ⟨rfl, by simp [FsSource.notify, ht], ?_, by simp [FsSource.notify, ht],
        by simp [FsSource.notify, ht]⟩
      intro h
      simp [FsSource.notify, ht] at h

/-! ## Tag parsing (claim C8) -/

/-- C8: parsing a tag fails exactly on the empty string and on strings
beginning or ending with `/`; `"root/leaf/sub"` parses to parent
`"root/leaf"` and leaf `"sub"`, while `""`, `"/a"` and `"a/"` fail. -/
theorem claim_C8 :
    (∀ s : String, tagFromStr s = none ↔
      (s.data = [] ∨ s.data.head? = some '/' ∨ s.data.getLast? = some '/')) ∧
    tagFromStr "root/leaf/sub" = some ⟨some "root/leaf", "sub"⟩ ∧
    tagFromStr "" = none ∧
    tagFromStr "/a" = none ∧
    tagFromStr "a/" = none := by
  refine ⟨?_, by decide, by decide, by decide, by decide⟩
  intro s
  have hlen : (s.length = 0) ↔ (s.data = []) := by
    show s.data.length = 0 ↔ _
    exact List.length_eq_zero
  by_cases h : s.length = 0 ∨ s.data.head? = some '/' ∨ s.data.getLast? = some '/'
  · unfold tagFromStr
    rw [if_pos h]
    simp only [true_iff]
    rcases h with h | h
    · exact Or.inl (hlen.mp h)
    · exact Or.inr h
  · unfold tagFromStr
    rw [if_neg h]
    constructor
    · intro habs
      simp at habs
    · intro hr
      refine absurd ?_ h
      rcases hr with hr | hr
      · exact Or.inl (hlen.mpr hr)
      · exact Or.inr hr

/-! ## Name synthesis and extension choice (claim C9) -/

/-- C9: the synthesised name is `"<base>.<ext>"` for index 0 and
`"<base> (<index>).<ext>"` otherwise; the extension is `"jpeg"` for
`image/jpeg`, `"png"` for `image/png`, and otherwise the first entry of
the media-type table, falling back to `"bin"`. -/
theorem claim_C9 (tbl : MimeTable) (base ext : String) (i : Nat) (m : Mime) :
    dataName base ext 0 = base ++ "." ++ ext ∧
    (0 < i → dataName base ext i = base ++ " (" ++ Nat.repr i ++ ")." ++ ext) ∧
    mimeFileExtension tbl imageJpeg = "jpeg" ∧
    mimeFileExtension tbl imagePng = "png" ∧
    (m ≠ imageJpeg → m ≠ imagePng →
      mimeFileExtension tbl m = (((tbl m).bind List.head?).getD "bin")) := by
  refine ⟨by simp [dataName], ?_, by simp [mimeFileExtension], ?_, ?_⟩
  · intro hi
    simp [dataName, hi]
  · have : imagePng ≠ imageJpeg := by decide
    simp [mimeFileExtension, this]
  · intro h1 h2
    simp [mimeFileExtension, h1, h2]

/-! ## Contiguous collision indices (claim C3) -/

/-- Inserting along a chain of singleton directories lands in the final
tree and returns its first free collision name. -/
theorem ins_chain (tbl : MimeTable) :
    ∀ (p : List Component) (t : Tree) (x : Entry), (∀ comp ∈ p, compOk comp) →
      insertEntry tbl (mkChain (normalsOf p) t) p x =
        (mkChain (normalsOf p) (t.insert (freshName tbl t x) x),
          some (freshName tbl t x)) := by
  intro p
  induction p with
  | nil =>
    intro t x _
    rw [normalsOf, mkChain, insertEntry_nil_dir, mkChain]
  | cons c rest ih =>
    intro t x hok
    have hok' : ∀ comp ∈ rest, compOk comp :=
      fun comp hm => hok comp (List.mem_cons_of_mem c hm)
    cases c with
    | rootDir =>
      rw [normalsOf, insertEntry_rootDir]
      exact ih t x hok'
    | curDir =>
      rw [normalsOf, insertEntry_curDir]
      exact ih t x hok'
    | parentDir => exact absurd (hok _ (List.mem_cons_self _ _)) id
    | pfx s => exact absurd (hok _ (List.mem_cons_self _ _)) id
    | normal s =>
      rw [normalsOf, mkChain, insertEntry_normal_dir]
      have hget : (Tree.cons s (mkChain (normalsOf rest) t) Tree.nil).get s =
          some (mkChain (normalsOf rest) t) := by
        rw [Tree.get, if_pos rfl]
      rw [hget]
      have := ih t x hok'
      rw [show ((some (mkChain (normalsOf rest) t)).getD (Entry.directory Tree.nil)) =
        mkChain (normalsOf rest) t from rfl]
      rw [this]
      have hins : (Tree.cons s (mkChain (normalsOf rest) t) Tree.nil).insert s
          (mkChain (normalsOf rest) (t.insert (freshName tbl t x) x)) =
          Tree.cons s (mkChain (normalsOf rest) (t.insert (freshName tbl t x) x))
            Tree.nil := by
        rw [Tree.insert, if_pos rfl]
      rw [hins, mkChain]

/-- Inserting into an empty root creates the chain and uses index 0. -/
theorem ins_empty (tbl : MimeTable) :
    ∀ (p : List Component) (x : Entry), (∀ comp ∈ p, compOk comp) →
      insertEntry tbl (Entry.directory Tree.nil) p x =
        (mkChain (normalsOf p) (Tree.cons (entryName tbl x 0) x Tree.nil),
          some (entryName tbl x 0)) := by
  intro p
  induction p with
  | nil =>
    intro x _
    rw [normalsOf, mkChain, insertEntry_nil_dir]
    rfl
  | cons c rest ih =>
    intro x hok
    have hok' : ∀ comp ∈ rest, compOk comp :=
      fun comp hm => hok comp (List.mem_cons_of_mem c hm)
    cases c with
    | rootDir =>
      rw [normalsOf, insertEntry_rootDir]
      exact ih x hok'
    | curDir =>
      rw [normalsOf, insertEntry_curDir]
      exact ih x hok'
    | parentDir => exact absurd (hok _ (List.mem_cons_self _ _)) id
    | pfx s => exact absurd (hok _ (List.mem_cons_self _ _)) id
    | normal s =>
      rw [normalsOf, insertEntry_normal_dir]
      rw [show (Tree.get Tree.nil s) = none from rfl]
      rw [show ((none : Option Entry).getD (Entry.directory Tree.nil)) =
        Entry.directory Tree.nil from rfl]
      rw [ih x hok']
      rw [show (Tree.insert Tree.nil s
        (mkChain (normalsOf rest) (Tree.cons (entryName tbl x 0) x Tree.nil))) =
        Tree.cons s (mkChain (normalsOf rest)
          (Tree.cons (entryName tbl x 0) x Tree.nil)) Tree.nil from rfl]
      rw [mkChain]

/-- The keys of `itemsTree b x start l` are exactly the names with
indices `start ≤ j < start + l.length`. -/
theorem containsKey_itemsTree (b x : String) :
    ∀ (l : List Item) (start j : Nat),
      ((itemsTree b x start l).containsKey (dataName b x j) = true) ↔
        (start ≤ j ∧ j < start + l.length) := by
  intro l
  induction l with
  | nil =>
    intro start j
    rw [itemsTree]
    simp [Tree.containsKey, Tree.get]
  | cons it rest ih =>
    intro start j
    rw [itemsTree]
    by_cases hn : dataName b x start = dataName b x j
    · have : start = j := dataName_injective b x hn
      subst this
      simp [Tree.containsKey, Tree.get, hn]
    · have hsj : start ≠ j := fun h => hn (by rw [h])
      rw [show (Tree.cons (dataName b x start) (Entry.item it)
        (itemsTree b x (start + 1) rest)).containsKey (dataName b x j) =
        (itemsTree b x (start + 1) rest).containsKey (dataName b x j) by
          simp [Tree.containsKey, Tree.get, hn]]
      rw [ih (start + 1) j]
      simp [List.length_cons]
      omega

/-- Inserting the next index appends to the items tree. -/
theorem insert_itemsTree (b x : String) :
    ∀ (l : List Item) (start : Nat) (it : Item),
      Tree.insert (itemsTree b x start l) (dataName b x (start + l.length))
          (Entry.item it) =
        itemsTree b x start (l ++ [it]) := by
  intro l
  induction l with
  | nil =>
    intro start it
    rw [itemsTree, Tree.insert]
    simp [itemsTree]
  | cons it0 rest ih =>
    intro start it
    rw [itemsTree, Tree.insert]
    have hne : dataName b x start ≠ dataName b x (start + (it0 :: rest).length) := by
      intro h
      have := dataName_injective b x h
      simp at this
    rw [if_neg (by
      intro h
      exact hne (by rw [h]))]
    rw [show start + (it0 :: rest).length = (start + 1) + rest.length by simp; omega]
    rw [ih (start + 1) it]
    rw [show (it0 :: rest) ++ [it] = it0 :: (rest ++ [it]) from rfl]
    rw [itemsTree]

/-- The first free index of the items tree is the number of items. -/
theorem freeIndex_itemsTree (tbl : MimeTable) (b x : String) (l : List Item)
    (e : Entry) (hne : entryName tbl e = dataName b x) :
    freeIndex tbl (itemsTree b x 0 l) e = l.length := by
  have hinj : Function.Injective (entryName tbl e) := by
    rw [hne]
    exact dataName_injective b x
  obtain ⟨hfree, hbelow⟩ := freeIndex_spec tbl (itemsTree b x 0 l) e hinj
  rw [freshName, hne] at hfree
  by_cases hlt : freeIndex tbl (itemsTree b x 0 l) e < l.length
  · exfalso
    have hc : (itemsTree b x 0 l).containsKey
        (dataName b x (freeIndex tbl (itemsTree b x 0 l) e)) = true :=
      (containsKey_itemsTree b x l 0 _).mpr ⟨Nat.zero_le _, by omega⟩
    rw [hfree] at hc
    exact Bool.false_ne_true hc
  · by_cases hgt : l.length < freeIndex tbl (itemsTree b x 0 l) e
    · exfalso
      have := hbelow l.length hgt
      rw [hne] at this
      rw [(containsKey_itemsTree b x l 0 l.length)] at this
      omega
    · omega

theorem add_of_insert (tbl : MimeTable) (c : Cache) (it : Item)
    (root' : Entry) (n : String)
    (hins : insertEntry tbl c.root (tsDirOf c it) (Entry.item it) = (root', some n))
    (htags : it.tags = []) :
    c.add tbl it =
      ({c with root := root'}, some (tsDirOf c it ++ [Component.normal n])) := by
  rw [Cache.add_eq]
  have hai : c.add_item tbl (tsDirOf c it) it =
      ({c with root := root'}, some (tsDirOf c it ++ [Component.normal n])) := by
    unfold Cache.add_item
    rw [hins]
  rw [hai, htags]
  rfl

theorem C3_dir_eq (tsroot : String) (ts : Timestamp) (c : Cache) (it : Item)
    (hf : c.timestamp_root = tsroot) (hts : it.timestamp = ts) :
    tsDirOf c it = tsDirFor tsroot ts := by
  unfold tsDirOf tsDirFor
  rw [hf, hts]

theorem entryName_item_eq (tbl : MimeTable) (it : Item) (b x : String)
    (ts : Timestamp) (hts : it.timestamp = ts) (hb : b = fmtTimestamp ts)
    (hx : mimeFileExtension tbl it.media_type = x) :
    entryName tbl (Entry.item it) = dataName b x := by
  funext i
  rw [entryName, hts, hx, hb]

theorem navOk_tsDirFor (tsroot : String) (ts : Timestamp)
    (h : ∀ comp ∈ parsePath tsroot, compOk comp) :
    ∀ comp ∈ tsDirFor tsroot ts, compOk comp := by
  intro comp hm
  rcases List.mem_append.mp hm with h1 | h2
  · exact h comp h1
  · simp at h2
    rcases h2 with rfl | rfl | rfl <;> trivial

/-- One `add` step of the C3 sequence: from a chain state holding `done`
items, the next like item lands at index `done.length` and the state
becomes the chain holding `done ++ [it]`. -/
theorem C3_step (tbl : MimeTable) (tsroot : String) (ts : Timestamp)
    (b x : String) (hb : b = fmtTimestamp ts)
    (hnav : ∀ comp ∈ parsePath tsroot, compOk comp)
    (done : List Item) (it : Item) (c : Cache)
    (hf : c.timestamp_root = tsroot)
    (hroot : c.root = mkChain (normalsOf (tsDirFor tsroot ts)) (itemsTree b x 0 done))
    (hts : it.timestamp = ts) (hx : mimeFileExtension tbl it.media_type = x)
    (htags : it.tags = []) :
    c.add tbl it =
      ({c with root := (mkChain (normalsOf (tsDirFor tsroot ts))
          (itemsTree b x 0 (done ++ [it])))},
        some (tsDirFor tsroot ts ++
          [Component.normal (dataName b x done.length)])) := by
  have hne := entryName_item_eq tbl it b x ts hts hb hx
  have hdir := C3_dir_eq tsroot ts c it hf hts
  have hfresh : freshName tbl (itemsTree b x 0 done) (Entry.item it) =
      dataName b x done.length := by
    rw [freshName, hne, freeIndex_itemsTree tbl b x done _ hne]
  have hins := ins_chain tbl (tsDirFor tsroot ts) (itemsTree b x 0 done)
    (Entry.item it) (navOk_tsDirFor tsroot ts hnav)
  rw [hfresh] at hins
  have htree : Tree.insert (itemsTree b x 0 done) (dataName b x done.length)
      (Entry.item it) = itemsTree b x 0 (done ++ [it]) := by
    have := insert_itemsTree b x done 0 it
    rw [Nat.zero_add] at this
    exact this
  rw [htree] at hins
  have hins' : insertEntry tbl c.root (tsDirOf c it) (Entry.item it) =
      (mkChain (normalsOf (tsDirFor tsroot ts)) (itemsTree b x 0 (done ++ [it])),
        some (dataName b x done.length)) := by
    rw [hroot, hdir]
    exact hins
  have := add_of_insert tbl c it _ _ hins' htags
  rw [hdir] at this
  exact this

/-- The whole C3 sequence from a chain state: returned paths carry the
contiguous indices `done.length, done.length + 1, …`. -/
theorem C3_loop (tbl : MimeTable) (tsroot : String) (ts : Timestamp)
    (b x : String) (hb : b = fmtTimestamp ts)
    (hnav : ∀ comp ∈ parsePath tsroot, compOk comp) :
    ∀ (todo done : List Item) (c : Cache),
      c.timestamp_root = tsroot →
      c.root = mkChain (normalsOf (tsDirFor tsroot ts)) (itemsTree b x 0 done) →
      (∀ it ∈ todo, it.timestamp = ts ∧
        mimeFileExtension tbl it.media_type = x ∧ it.tags = []) →
      (addAll tbl c todo).2 =
        (List.range' done.length todo.length).map
          (fun i => some (tsDirFor tsroot ts ++
            [Component.normal (dataName b x i)])) := by
  intro todo
  induction todo with
  | nil =>
    intro done c _ _ _
    rw [addAll]
    rfl
  | cons it todo' ih =>
    intro done c hf hroot hprops
    obtain ⟨hts, hx, htags⟩ := hprops it (List.mem_cons_self _ _)
    have hstep := C3_step tbl tsroot ts b x hb hnav done it c hf hroot hts hx htags
    rw [addAll, hstep]
    simp only []
    have hih := ih (done ++ [it])
      ({c with root := (mkChain (normalsOf (tsDirFor tsroot ts))
        (itemsTree b x 0 (done ++ [it])))})
      hf rfl (fun it' hm => hprops it' (List.mem_cons_of_mem _ hm))
    rw [hih]
    rw [List.length_cons, List.range'_succ]
    simp

/-- The first `add` into an empty cache creates the chain and uses
index 0. -/
theorem C3_first (tbl : MimeTable) (tsroot tagroot : String) (ts : Timestamp)
    (b x : String) (hb : b = fmtTimestamp ts)
    (hnav : ∀ comp ∈ parsePath tsroot, compOk comp) (it : Item)
    (hts : it.timestamp = ts) (hx : mimeFileExtension tbl it.media_type = x)
    (htags : it.tags = []) :
    (Cache.new tsroot tagroot).add tbl it =
      ({Cache.new tsroot tagroot with
          root := (mkChain (normalsOf (tsDirFor tsroot ts)) (itemsTree b x 0 [it]))},
        some (tsDirFor tsroot ts ++ [Component.normal (dataName b x 0)])) := by
  have hne := entryName_item_eq tbl it b x ts hts hb hx
  have hdir := C3_dir_eq tsroot ts (Cache.new tsroot tagroot) it rfl hts
  have hins := ins_empty tbl (tsDirFor tsroot ts) (Entry.item it)
    (navOk_tsDirFor tsroot ts hnav)
  rw [show entryName tbl (Entry.item it) 0 = dataName b x 0 from congrFun hne 0]
    at hins
  have htree : Tree.cons (dataName b x 0) (Entry.item it) Tree.nil =
      itemsTree b x 0 [it] := by
    rw [itemsTree, itemsTree]
  rw [htree] at hins
  have hins' : insertEntry tbl (Cache.new tsroot tagroot).root
      (tsDirOf (Cache.new tsroot tagroot) it) (Entry.item it) =
      (mkChain (normalsOf (tsDirFor tsroot ts)) (itemsTree b x 0 [it]),
        some (dataName b x 0)) := by
    rw [hdir]
    exact hins
  have := add_of_insert tbl (Cache.new tsroot tagroot) it _ _ hins' htags
  rw [hdir] at this
  exact this

/-- C3: items with identical timestamps, identical extensions and no
tags, added in order to an empty cache with a traversable timestamp
root, receive paths identical except for the collision-suffix index, the
indices contiguous `0, 1, 2, …`; moreover each insertion uses the least
index whose name is not yet present (index 0 first, incrementing only
while the candidate name exists). -/
theorem claim_C3 (tbl : MimeTable) (tsroot tagroot x : String) (ts : Timestamp)
    (items : List Item)
    (hnav : ∀ comp ∈ parsePath tsroot, compOk comp)
    (hprops : ∀ it ∈ items, it.timestamp = ts ∧
      mimeFileExtension tbl it.media_type = x ∧ it.tags = []) :
    (addAll tbl (Cache.new tsroot tagroot) items).2 =
      (List.range' 0 items.length).map
        (fun i => some (tsDirFor tsroot ts ++
          [Component.normal (dataName (fmtTimestamp ts) x i)])) ∧
    (∀ (t : Tree) (e : Entry), nonDir e →
      ((∀ k < freeIndex tbl t e, t.containsKey (entryName tbl e k) = true) ∧
        t.containsKey (entryName tbl e (freeIndex tbl t e)) = false)) := by
  constructor
  · cases items with
    | nil => rw [addAll]; rfl
    | cons it0 rest =>
      obtain ⟨hts, hx, htags⟩ := hprops it0 (List.mem_cons_self _ _)
      have hfirst := C3_first tbl tsroot tagroot ts (fmtTimestamp ts) x rfl hnav
        it0 hts hx htags
      rw [addAll, hfirst]
      simp only []
      have hloop := C3_loop tbl tsroot ts (fmtTimestamp ts) x rfl hnav rest [it0]
        ({Cache.new tsroot tagroot with
          root := (mkChain (normalsOf (tsDirFor tsroot ts))
            (itemsTree (fmtTimestamp ts) x 0 [it0]))})
        rfl rfl (fun it' hm => hprops it' (List.mem_cons_of_mem _ hm))
      rw [hloop]
      simp [List.range'_succ]
  · intro t e hnd
    obtain ⟨hfree, hbelow⟩ :=
      freeIndex_spec tbl t e (entryName_injective_of_nonDir tbl e hnd)
    exact ⟨hbelow, hfree⟩

/-- C7: `lookup` walks the path skipping root-directory and
current-directory components, descends only through directory entries,
returns the entry reached by the final component, and yields `none`
whenever a parent-directory or prefix component occurs, a name is
absent, or descent meets a non-directory: it coincides with the
specification walk `lookupSpec`. -/
theorem claim_C7 (c : Cache) (p : List Component) :
    c.lookup p = lookupSpec c.root p :=
  lookupFrom_eq_spec c.root p

/-! ## Witnesses -/

/-- C1 witness: adding `it1` to `c0` returns
`/base/2000/01/01/2000-01-01 00:00.jpeg` and the item is found there. -/
theorem claim_C1_witness :
    (∃ n, pW1 = parsePath c0.timestamp_root ++
        [Component.normal (Int.repr it1.timestamp.year),
         Component.normal (pad2 it1.timestamp.month),
         Component.normal (pad2 it1.timestamp.day),
         Component.normal n]) ∧
      ((Cache.add tbl0 c0 it1).1).lookup pW1 = some (Entry.item it1) :=
  claim_C1 tbl0 c0 (Cache.add tbl0 c0 it1).1 it1 pW1 rfl

/-- C2 witness: a link added under the one-component directory `x` with
the relative item path `All/a.jpeg` is found carrying target
`../All/a.jpeg`. -/
theorem claim_C2_witness :
    (c0.add_link tbl0 [Component.normal "x"]
        [Component.normal "All", Component.normal "a.jpeg"] it1).lookup
      ([Component.normal "x"] ++ [Component.normal
        (freshName tbl0 Tree.nil (Entry.link it1.timestamp.toTimespec
          (if pathIsAbsolute [Component.normal "All", Component.normal "a.jpeg"]
           then [Component.normal "All", Component.normal "a.jpeg"]
           else List.replicate
              (List.length [Component.normal "x"]) Component.parentDir ++
             [Component.normal "All", Component.normal "a.jpeg"])))]) =
    some (Entry.link it1.timestamp.toTimespec
      (if pathIsAbsolute [Component.normal "All", Component.normal "a.jpeg"]
       then [Component.normal "All", Component.normal "a.jpeg"]
       else List.replicate
          (List.length [Component.normal "x"]) Component.parentDir ++
         [Component.normal "All", Component.normal "a.jpeg"])) :=
  claim_C2 tbl0 c0 [Component.normal "x"]
    [Component.normal "All", Component.normal "a.jpeg"] it1 Tree.nil rfl

/-- C3 witness: two untagged items with equal timestamps and extensions
added to an empty cache receive the contiguous indices 0 and 1. -/
theorem claim_C3_witness :
    (addAll tbl0 (Cache.new "/base" "tagged") [it1, it2]).2 =
      (List.range' 0 (List.length [it1, it2])).map
        (fun i => some (tsDirFor "/base" ts2000 ++
          [Component.normal (dataName (fmtTimestamp ts2000) "jpeg" i)])) ∧
    (∀ (t : Tree) (e : Entry), nonDir e →
      ((∀ k < freeIndex tbl0 t e, t.containsKey (entryName tbl0 e k) = true) ∧
        t.containsKey (entryName tbl0 e (freeIndex tbl0 t e)) = false)) :=
  claim_C3 tbl0 "/base" "tagged" "jpeg" ts2000 [it1, it2]
    (by decide) (by decide)

/-- C4 witness: replacing the contents of `c0` with the single item
`it1` succeeds and leaves the post-clear state with that one add. -/
theorem claim_C4_witness :
    c0.replace_all tbl0 [it1] =
      (foldAdd tbl0 {c0 with root := c0.root.clear} [it1], none) :=
  (claim_C4 tbl0 c0 [it1]).2.2.2.1 ⟨by decide, trivial⟩

/-- C5 witness: a directory holding one item rolls up to the maximum of
its descendants' timestamps. -/
theorem claim_C5_witness :
    (Entry.directory (Tree.cons "a" (Entry.item it1) Tree.nil)).timestamp =
      maxTsList
        (((Entry.directory (Tree.cons "a" (Entry.item it1) Tree.nil)).descendants).map
          Entry.timestamp) :=
  ((claim_C5 (Entry.directory (Tree.cons "a" (Entry.item it1) Tree.nil))).1
    (Tree.cons "a" (Entry.item it1) Tree.nil) rfl).1

/-- C6 witness: with no last-seen timestamp, `notify` on a readable
mtime scans. -/
theorem claim_C6_witness :
    (FsSource.notify (some 5) ⟨none⟩).2 = true :=
  (claim_C6 5 ⟨none⟩).2.1.mpr (Or.inl rfl)

/-- C8 witness: a string starting with the separator fails to parse. -/
theorem claim_C8_witness : tagFromStr "/x" = none :=
  (claim_C8.1 "/x").mpr (Or.inr (Or.inl (by decide)))

/-- C9 witness: a positive index is rendered parenthesised after the
base. -/
theorem claim_C9_witness :
    dataName "2000-01-01 00:00" "jpeg" 2 =
      "2000-01-01 00:00" ++ " (" ++ Nat.repr 2 ++ ")." ++ "jpeg" :=
  (claim_C9 tbl0 "2000-01-01 00:00" "jpeg" 2 imageJpeg).2.1 (by omega)

/-- C10 witness: the root directory survives an `add` (extended with the
new entries). -/
theorem claim_C10_witness :
    ∃ v', ((Cache.add tbl0 c0 it1).1).lookup [] = some v' ∧
      Entry.Ext (Entry.directory Tree.nil) v' ∧
      (∀ it0, Entry.directory Tree.nil = Entry.item it0 → v' = Entry.item it0) ∧
      (∀ ts tg, Entry.directory Tree.nil = Entry.link ts tg →
        v' = Entry.link ts tg) :=
  claim_C10 tbl0 c0 it1 [] (Entry.directory Tree.nil) rfl

/-! ## Counterexamples -/

/-- C2 counterexample: with the test configuration `/base`, the item path
is absolute, `PathBuf::push` replaces the accumulated `..` components,
and the link inserted for tag `t` (directory `tagged/t`, two components)
carries the item's absolute path as target — not two `..` components
followed by the item path, as the claim states. -/
theorem claim_C2_counterexample :
    tagDirOf c0 ⟨none, "t"⟩ = [Component.normal "tagged", Component.normal "t"] ∧
    ((Cache.add tbl0 c0 itT).1).lookup
        [Component.normal "tagged", Component.normal "t",
         Component.normal "2000-01-01 00:00.jpeg"] =
      some (Entry.link (Timestamp.toTimespec ts2000) pW1) ∧
    pW1 ≠ List.replicate 2 Component.parentDir ++ pW1 :=
  ⟨by decide, by rfl, by decide⟩

/-- C3 counterexample: two items with identical timestamps and
extensions added in order to an empty cache — the first carrying a tag
whose directory aliases the timestamp directory — receive collision
indices 0 and 2: the tag link consumes index 1, so the indices are not
contiguous as the claim states. -/
theorem claim_C3_counterexample :
    (addAll tbl0 cAll [itX, it2]).2 = [some pX0, some pX2] ∧ pX2 ≠ pX1 :=
  ⟨by decide, by decide⟩

/-- C6 counterexample: a source whose last-seen timestamp already equals
the root's mtime performs no scan on the first of two consecutive
`notify` calls, contradicting the claim's "exactly one scan on the first
call". -/
theorem claim_C6_counterexample :
    FsSource.notify (some 0) ⟨some 0⟩ = (⟨some 0⟩, false) := by
  rfl

end Medifs
